import Mathlib

/-!  Verification development for the go-azure-openai repository.

The component under study is the template parser/builder in
internal/service/prompt (ParseRawEvaluationTemplate,
BuildCriterionTemplatesFromRaw, formatScore, the two line regular
expressions), plus the chat agent glue (ChatStructured,
ChatStructuredJSON) and the POST /api/chat fiber handler.

Modelling choices, documented once here:
  - Go strings are modelled as lists of characters (runes); all the string
    operations used by the source (TrimSpace, TrimRight, TrimLeft,
    HasPrefix, Split on a newline) act on runes, so this is faithful.
  - float64 scores are modelled as exact decimal fractions num / 10 ^ exp10
    held in lowest decimal terms.  Every score accepted by the source's
    regular expressions is a short decimal literal, for which the float64
    value is the exactly represented decimal (up to the usual binary
    representation error, which never changes any comparison or the first
    two rounded decimal digits for the short literals in play), so decimal
    arithmetic is the faithful shallow embedding.  fmt's %.2f rounding of a
    decimal value is round-to-nearest, ties-to-even, which is implemented
    below on the exact fractions.
  - Go ints are modelled as Nat: every integer in these code paths (parsed
    criterion indices, slice positions) is non-negative; fmt.Sscanf %d on an
    out-of-range digit string leaves the destination at zero, which atoiSafe
    reproduces with an explicit 2 ^ 63 bound.
-/

/-- Decidable equality for Except results (used to evaluate builder calls on
concrete inputs). -/
instance {α β : Type} [DecidableEq α] [DecidableEq β] : DecidableEq (Except α β) := fun x y =>
  match x, y with
  | .error a, .error b =>
    if h : a = b then .isTrue (h ▸ rfl) else .isFalse (fun hc => h (by cases hc; rfl))
  | .ok a, .ok b =>
    if h : a = b then .isTrue (h ▸ rfl) else .isFalse (fun hc => h (by cases hc; rfl))
  | .error _, .ok _ => .isFalse (fun hc => Except.noConfusion hc)
  | .ok _, .error _ => .isFalse (fun hc => Except.noConfusion hc)

/-- Character class of Go's unicode.IsSpace: the Latin-1 white space
characters plus the Unicode space separators. -/
def goIsSpace (c : Char) : Bool :=
  c == ' ' || c == '\t' || c == '\n' || c == '\x0b' || c == '\x0c' || c == '\r' ||
  c == '\u0085' || c == ' ' || c == ' ' ||
  (' ' ≤ c && c ≤ ' ') ||
  c == ' ' || c == ' ' || c == ' ' || c == ' ' || c == '　'

/-- Go strings are modelled as lists of runes. -/
abbrev Str := List Char

/-- Convenience conversion from a Lean string literal. -/
def strL (s : String) : Str := s.data

/-- strings.TrimRight with a one-character-class cut set. -/
def trimRightWhile (p : Char → Bool) (s : Str) : Str :=
  (s.reverse.dropWhile p).reverse

/-- strings.TrimSpace. -/
def trimSpace (s : Str) : Str :=
  trimRightWhile goIsSpace (s.dropWhile goIsSpace)

/-- strings.Split(raw, "\n"): the list of newline-separated segments, empty
segments preserved; the empty string yields one empty segment. -/
def splitNL : Str → List Str
  | [] => [[]]
  | c :: r =>
    if c = '\n' then [] :: splitNL r
    else
      match splitNL r with
      | [] => [[c]]
      | s :: ss => (c :: s) :: ss

/-- Numeric value of a decimal digit character. -/
def digitVal (c : Char) : Nat := c.toNat - 48

/-- Value of a string of decimal digits. -/
def digitsVal (s : Str) : Nat := s.foldl (fun a c => 10 * a + digitVal c) 0

/-- The decimal digit character for a value below ten. -/
def digitChar (n : Nat) : Char := Char.ofNat (48 + n)

/-- Fuel-driven digit rendering (structural recursion so that the kernel
can evaluate it; the fuel is always sufficient below). -/
def natToDecAux : Nat → Nat → Str
  | 0, _ => []
  | fuel + 1, n =>
    if n < 10 then [digitChar n]
    else natToDecAux fuel (n / 10) ++ [digitChar (n % 10)]

/-- Decimal rendering of a natural number, most significant digit first;
the rendering fmt's %d produces for non-negative values. -/
def natToDec (n : Nat) : Str := natToDecAux (n + 1) n

/-- atoiSafe from prompt.go: fmt.Sscanf %d on the digits captured by the
regular expressions; a value not fitting int64 leaves the target at zero. -/
def atoiSafe (s : Str) : Nat :=
  let v := digitsVal s
  if v < 2 ^ 63 then v else 0

/-- An exact decimal fraction num / 10 ^ exp10, kept with exp10 minimal
(exp10 = 0, or num not divisible by ten).  Shallow embedding of the float64
score values. -/
structure Score where
  num : Nat
  exp10 : Nat
deriving DecidableEq

/-- Normalise a decimal fraction by stripping trailing decimal zeros. -/
def normScore (n : Nat) : Nat → Score
  | 0 => ⟨n, 0⟩
  | e + 1 => if n % 10 = 0 then normScore (n / 10) e else ⟨n, e + 1⟩

/-- atofSafe from prompt.go: fmt.Sscanf %f on a capture shaped
digits(.digits)?, as the exact decimal value. -/
def atofSafe (s : Str) : Score :=
  let a := s.takeWhile (fun c => c.isDigit)
  let r := s.dropWhile (fun c => c.isDigit)
  if r.head? = some '.' then
    normScore (digitsVal a * 10 ^ r.tail.length + digitsVal r.tail) r.tail.length
  else ⟨digitsVal a, 0⟩

/-- Round a ratio n / d to the nearest integer, ties to even (the rounding
fmt's fixed-precision float formatting performs). -/
def roundHE (n d : Nat) : Nat :=
  let q := n / d
  let r := n % d
  if 2 * r < d then q
  else if d < 2 * r then q + 1
  else if q % 2 = 0 then q else q + 1

/-- The integer nearest 100 times the score (ties to even). -/
def times100round (f : Score) : Nat :=
  if f.exp10 ≤ 2 then f.num * 10 ^ (2 - f.exp10)
  else roundHE f.num (10 ^ (f.exp10 - 2))

/-- Two-digit zero-padded decimal rendering of a value below one hundred. -/
def twoDigits (k : Nat) : Str := [digitChar (k / 10), digitChar (k % 10)]

/-- fmt.Sprintf("%.2f", f) for a non-negative score. -/
def fmt2 (f : Score) : Str :=
  let m := times100round f
  natToDec (m / 100) ++ '.' :: twoDigits (m % 100)

/-- formatScore from prompt.go: an integer renders without a decimal point,
otherwise %.2f with trailing zeros and then a trailing bare point trimmed
from the right. -/
def formatScore (f : Score) : Str :=
  if f.exp10 = 0 then natToDec f.num
  else trimRightWhile (fun c => c = '.') (trimRightWhile (fun c => c = '0') (fmt2 f))

/-! ### The two line regular expressions

critPattern is
  ^CRITERIA\s+(\d+):\s+(.*?)\s*\((?:0-)?([0-9]+(?:\.[0-9]+)?)\s+marks?\)\s*$
and itemPattern is
  ^-\s+(.*?)\s*\((?:0-)?([0-9]+(?:\.[0-9]+)?)\s+marks?\)\s*$ .
Both are implemented below with RE2's priority semantics: the leading \s+
and \d+ are maximal munches (the follower classes are disjoint), the lazy
group takes the leftmost split at which the anchored tail matches, and \s*
after the lazy group absorbs the white space in front of the parenthesis.
The optional 0- and the optional fraction and plural-s are tried
present-first with the fallback shown to be equivalent to full
backtracking (the follower characters are disjoint from the classes). -/

/-- Parse the capture [0-9]+(?:\.[0-9]+)? greedily from the front. -/
def parseNum (l : Str) : Option (Str × Str) :=
  let a := l.takeWhile (fun c => c.isDigit)
  let r := l.dropWhile (fun c => c.isDigit)
  if a = [] then none
  else if r.head? = some '.' then
    let r2 := r.tail
    let b := r2.takeWhile (fun c => c.isDigit)
    if b = [] then some (a, r)
    else some (a ++ '.' :: b, r2.dropWhile (fun c => c.isDigit))
  else some (a, r)

/-- Match (NUM)\s+marks?\)\s* against the whole remaining line, returning
the numeric capture. -/
def coreEnd (l : Str) : Option Str :=
  match parseNum l with
  | none => none
  | some (numS, r) =>
    let ws := r.takeWhile goIsSpace
    let r2 := r.dropWhile goIsSpace
    if ws = [] then none
    else if (strL "mark").isPrefixOf r2 then
      let r3 := r2.drop 4
      let r4 := if r3.head? = some 's' then r3.drop 1 else r3
      if r4.head? = some ')' then
        if (r4.drop 1).dropWhile goIsSpace = [] then some numS else none
      else none
    else none

/-- Match (?:0-)?(NUM)\s+marks?\)\s* against the whole remaining line. -/
def parenAll (l : Str) : Option Str :=
  if l.take 2 = strL "0-" then
    match coreEnd (l.drop 2) with
    | some n => some n
    | none => coreEnd l
  else coreEnd l

/-- Does \s*\((?:0-)?(NUM)\s+marks?\)\s* match the whole remaining line? -/
def checkHere (r : Str) : Option Str :=
  let d := r.dropWhile goIsSpace
  if d.head? = some '(' then parenAll d.tail else none

/-- The lazy group (.*?)\s*\( followed by the anchored tail: take the
leftmost split at which the tail matches, accumulating the skipped
characters (in reverse) as the capture. -/
def lazySplit : Str → Str → Option (Str × Str)
  | acc, [] =>
    (match checkHere [] with
     | some numS => some (acc.reverse, numS)
     | none => none)
  | acc, c :: r2 =>
    (match checkHere (c :: r2) with
     | some numS => some (acc.reverse, numS)
     | none => lazySplit (c :: acc) r2)

/-- critPattern.FindStringSubmatch: the captures (digits, title, score) when
the anchored criterion-header expression matches the trimmed line. -/
def critMatch (t : Str) : Option (Str × Str × Str) :=
  if (strL "CRITERIA").isPrefixOf t then
    let r0 := t.drop 8
    let ws1 := r0.takeWhile goIsSpace
    let r1 := r0.dropWhile goIsSpace
    if ws1 = [] then none
    else
      let ds := r1.takeWhile (fun c => c.isDigit)
      let r1d := r1.dropWhile (fun c => c.isDigit)
      if ds = [] then none
      else if r1d.head? = some ':' then
        let r2 := r1d.tail
        let ws2 := r2.takeWhile goIsSpace
        let r3 := r2.dropWhile goIsSpace
        if ws2 = [] then none
        else
          match lazySplit [] r3 with
          | some (ti, numS) => some (ds, ti, numS)
          | none => none
      else none
  else none

/-- itemPattern.FindStringSubmatch: the captures (description, score) when
the anchored item-line expression matches the trimmed line. -/
def itemMatch (t : Str) : Option (Str × Str) :=
  if t.head? = some '-' then
    let r0 := t.tail
    let ws := r0.takeWhile goIsSpace
    let r1 := r0.dropWhile goIsSpace
    if ws = [] then none else lazySplit [] r1
  else none

/-! ### Data model (prompt.go) -/

/-- CriterionItem: one bullet point under a criterion and its marks. -/
structure CriterionItem where
  description : Str
  maxScore : Score
deriving DecidableEq

/-- Criterion: a scoring criterion; Index is the 1-based display order and
zero means "derive from slice position". -/
structure Criterion where
  index : Nat
  title : Str
  maxScore : Score
  items : List CriterionItem
deriving DecidableEq

/-- CriterionTemplate: one generated per-criterion template. -/
structure CriterionTemplate where
  title : Str
  prompt : Str
  maxScore : Score
deriving DecidableEq

/-! ### The parser (ParseRawEvaluationTemplate) -/

/-- The section the line loop is currently in. -/
inductive Sec where
  | start
  | instr
  | crit
  | quest
  | ans
deriving DecidableEq

/-- The loop state of ParseRawEvaluationTemplate. -/
structure PState where
  sec : Sec
  instrAcc : Str
  answerAcc : Str
  criteria : List Criterion
  current : Option Criterion
  questionTitle : Str
  bullets : List Str
deriving DecidableEq

def initPS : PState := ⟨Sec.start, [], [], [], none, [], []⟩

def mINSTR : Str := strL "===INSTRUCTIONS==="
def mCRIT : Str := strL "===CRITERIA==="
def mQUEST : Str := strL "===QUESTION==="
def mANS : Str := strL "===ANSWER==="

/-- strings.HasPrefix tests against the three bullet markers. -/
def isBulletLine (t : Str) : Bool :=
  (strL "•").isPrefixOf t || (strL "-").isPrefixOf t || (strL "*").isPrefixOf t

/-- How a bullet-position line of the QUESTION section is stored: strip a
single leading dot marker, or the whole leading run of -, * and blanks, and
trim; a non-bullet line in bullet position is stored as trimmed. -/
def bulletStore (t : Str) : Str :=
  if (strL "•").isPrefixOf t then trimSpace (t.drop 1)
  else if (strL "-").isPrefixOf t || (strL "*").isPrefixOf t then
    trimSpace (t.dropWhile (fun c => c = '-' || c = '*' || c = ' '))
  else t

/-- The section a marker line switches to, if the trimmed line is one of
the four markers. -/
def markerSec (t : Str) : Option Sec :=
  if t = mINSTR then some Sec.instr
  else if t = mCRIT then some Sec.crit
  else if t = mQUEST then some Sec.quest
  else if t = mANS then some Sec.ans
  else none

/-- Effect of one (CR-stripped, non-marker) line on the INSTRUCTIONS
accumulator: a blank line writes one newline; a non-blank line writes a
separating newline when the accumulator is non-empty, then the trimmed
line. -/
def instrStep (acc : Str) (line : Str) : Str :=
  let t := trimSpace line
  if t = [] then acc ++ ['\n']
  else (if acc ≠ [] then acc ++ ['\n'] else acc) ++ t

/-- Effect of one (CR-stripped, non-marker) line on the ANSWER accumulator:
as for INSTRUCTIONS except that a non-blank line is written untrimmed. -/
def ansStep (acc : Str) (line : Str) : Str :=
  let t := trimSpace line
  if t = [] then acc ++ ['\n']
  else (if acc ≠ [] then acc ++ ['\n'] else acc) ++ line

/-- Effect of one (CR-stripped, non-marker) line on the CRITERIA state
(sealed criteria, in-progress criterion): a header line seals the open
criterion and opens a new one; an item line extends the open criterion and
is dropped when none is open; anything else (including blank lines, which
the source skips before matching) is ignored. -/
def critStep : List Criterion × Option Criterion → Str → List Criterion × Option Criterion
  | (cs, cur), line =>
    let t := trimSpace line
    if t = [] then (cs, cur)
    else
      match critMatch t with
      | some (ds, ti, numS) =>
        (cs ++ (match cur with
          | some c => [c]
          | none => []),
         some ⟨atoiSafe ds, ti, atofSafe numS, []⟩)
      | none =>
        match itemMatch t with
        | some (de, numS) =>
          match cur with
          | none => (cs, cur)
          | some c => (cs, some { c with items := c.items ++ [⟨de, atofSafe numS⟩] })
        | none => (cs, cur)

/-- Effect of one (CR-stripped, non-marker) line on the QUESTION state
(title, bullets): the first non-bullet non-blank line becomes the title,
every other non-blank line is stored through bulletStore; blank lines are
skipped by the source before this dispatch. -/
def qStep : Str × List Str → Str → Str × List Str
  | (qt, qb), line =>
    let t := trimSpace line
    if t = [] then (qt, qb)
    else if isBulletLine t = false ∧ qt = [] then (t, qb)
    else (qt, qb ++ [bulletStore t])

/-- One iteration of the parser's line loop: strip a trailing CR, switch
section on a marker line, otherwise act on the current section's state.
The source's shared blank-line branch (newline into the INSTRUCTIONS or
ANSWER accumulator, skip elsewhere) is distributed into the per-section
step functions with identical effect. -/
def pstep (st : PState) (rawLine : Str) : PState :=
  let line := trimRightWhile (fun c => c = '\r') rawLine
  match markerSec (trimSpace line) with
  | some s2 => { st with sec := s2 }
  | none =>
    match st.sec with
    | Sec.start => st
    | Sec.instr => { st with instrAcc := instrStep st.instrAcc line }
    | Sec.crit =>
      let p := critStep (st.criteria, st.current) line
      { st with criteria := p.1, current := p.2 }
    | Sec.quest =>
      let p := qStep (st.questionTitle, st.bullets) line
      { st with questionTitle := p.1, bullets := p.2 }
    | Sec.ans => { st with answerAcc := ansStep st.answerAcc line }

/-- Seal the in-progress criterion into the list, if one is open. -/
def sealCur (cs : List Criterion) : Option Criterion → List Criterion
  | some c => cs ++ [c]
  | none => cs

/-- ParseRawEvaluationTemplate from prompt.go: instructions, criteria,
question title, question bullets, answer placeholder. -/
def ParseRawEvaluationTemplate (raw : Str) :
    Str × List Criterion × Str × List Str × Str :=
  let st := (splitNL raw).foldl pstep initPS
  (trimSpace st.instrAcc,
   sealCur st.criteria st.current,
   st.questionTitle,
   st.bullets.map trimSpace,
   trimSpace st.answerAcc)

/-! ### The builder (BuildCriterionTemplatesFromRaw) -/

/-- Insert into a key-sorted list, before the first strictly larger key
(so equal keys keep the incoming element last among earlier ones). -/
def insertLE (x : Nat × Criterion) : List (Nat × Criterion) → List (Nat × Criterion)
  | [] => [x]
  | y :: ys => if x.1 ≤ y.1 then x :: y :: ys else y :: insertLE x ys

/-- Stable insertion sort on the effective order key.  Extensionally this is
the unique stable sort by the key, hence the function Go's sort.SliceStable
computes with less i j defined as order i < order j. -/
def sortStable : List (Nat × Criterion) → List (Nat × Criterion)
  | [] => []
  | x :: xs => insertLE x (sortStable xs)

/-- Pair each criterion with its effective order key: its own index when
non-zero, else one plus its position. -/
def withKeys (cs : List Criterion) : List (Nat × Criterion) :=
  cs.enum.map (fun p => (if p.2.index = 0 then p.1 + 1 else p.2.index, p.2))

/-- Render one criterion's standalone template document. -/
def renderTemplate (instructions questionTitle : Str) (bullets : List Str)
    (answer : Str) (oc : Nat × Criterion) : CriterionTemplate :=
  let c := oc.2
  let header := strL "CRITERIA " ++ natToDec oc.1 ++ strL ": " ++ c.title ++
    strL " (0-" ++ formatScore c.maxScore ++ strL " marks)"
  let itemLines := c.items.foldl
    (fun acc it => acc ++ strL "- " ++ it.description ++ strL "  (0-" ++
      formatScore it.maxScore ++ strL " marks)" ++ ['\n']) []
  let prompt :=
    mINSTR ++ ['\n'] ++ trimSpace instructions ++ ['\n'] ++ mCRIT ++ ['\n'] ++
    header ++ ['\n'] ++ itemLines ++ mQUEST ++ ['\n'] ++
    (if questionTitle ≠ [] then questionTitle ++ ['\n'] else []) ++
    bullets.foldl (fun acc qb => acc ++ (if qb ≠ [] then strL "• " ++ qb ++ ['\n'] else [])) [] ++
    mANS ++ ['\n'] ++
    (if answer ≠ [] then answer else [])
  ⟨c.title, prompt, c.maxScore⟩

def noCriteriaMsg : Str := strL "no criteria parsed"

/-- BuildCriterionTemplatesFromRaw from prompt.go. -/
def BuildCriterionTemplatesFromRaw (raw : Str) : Except Str (List CriterionTemplate) :=
  match ParseRawEvaluationTemplate raw with
  | (instructions, criteria, questionTitle, questionBullets, answer) =>
    if criteria = [] then Except.error noCriteriaMsg
    else
      let stripped := (questionBullets.map (fun b =>
        (trimSpace b).dropWhile (fun c => c = '•' || c = '-' || c = '*' || c = ' ' || c = '\t'))).filter
        (fun b => b ≠ [])
      Except.ok ((sortStable (withKeys criteria)).map
        (renderTemplate instructions questionTitle stripped answer))

/-! ### The chat agent (agent.go) and the POST /api/chat handler

The vendor transport (go-openai's CreateChatCompletion) and the standard
library's json.Unmarshal are external dependencies; they are modelled at the
boundary: the transport as an arbitrary outcome value, the JSON decoder as
an arbitrary function from reply text to a parsed value or an error
message.  Everything downstream of those two calls is translated from
agent.go lines 217-295 and from the /api/chat handler. -/

/-- One completion choice of the vendor response. -/
structure ChatChoice where
  content : Str
  finishReason : Str
deriving DecidableEq

/-- The part of the vendor response ChatStructured reads. -/
structure ChatResponse where
  model : Str
  choices : List ChatChoice
  totalTokens : Nat
deriving DecidableEq

/-- Outcome of the CreateChatCompletion transport call. -/
inductive Outcome where
  | ok (resp : ChatResponse)
  | err (msg : Str)
deriving DecidableEq

/-- ChatResult from agent.go (the Raw pointer field is not modelled). -/
structure ChatResult where
  text : Str
  model : Str
  finishReason : Str
  tokens : Nat
deriving DecidableEq

/-- The zero ChatResult value returned on every error path. -/
def emptyChatResult : ChatResult := ⟨[], [], [], 0⟩

/-- ChatStructured (agent.go): transport errors and empty choice lists are
errors; otherwise the result is populated from the first choice, the
response model and the usage total. -/
def ChatStructured (outcome : Outcome) : Except Str ChatResult :=
  match outcome with
  | .err e => .error e
  | .ok resp =>
    if resp.choices = [] then .error (strL "empty response choices")
    else
      match resp.choices with
      | [] => .error (strL "empty response choices")
      | ch :: _ => .ok ⟨ch.content, resp.model, ch.finishReason, resp.totalTokens⟩

/-- ChatStructuredJSON (agent.go): validate a non-empty output schema as
JSON, run the chat call, then parse the reply text; returns the triple
(result, parsed, error).  decode stands for json.Unmarshal. -/
def ChatStructuredJSON {V : Type} (decode : Str → Except Str V)
    (outputSchema : Str) (outcome : Outcome) :
    ChatResult × Option V × Option Str :=
  if outputSchema ≠ [] then
    match decode outputSchema with
    | .error e => (emptyChatResult, none, some (strL "invalid output_schema JSON: " ++ e))
    | .ok _ =>
      match ChatStructured outcome with
      | .error e => (emptyChatResult, none, some e)
      | .ok res =>
        match decode res.text with
        | .error e => (res, none, some e)
        | .ok v => (res, some v, none)
  else
    match ChatStructured outcome with
    | .error e => (emptyChatResult, none, some e)
    | .ok res =>
      match decode res.text with
      | .error e => (res, none, some e)
      | .ok v => (res, some v, none)

/-- Response bodies the /api/chat handler can serialise. -/
inductive ChatBody (V : Type) where
  | errBody (msg : Str)
  | dataOnly (res : ChatResult)
  | dataParsed (res : ChatResult) (v : V)
  | dataParseError (res : ChatResult) (msg : Str)
deriving DecidableEq

/-- The POST /api/chat handler (NewServer in the app package), for a
non-nil agent: resolve the message from the form field or the raw body,
then route through ChatStructuredJSON when a server-side schema is
configured and through ChatStructured otherwise; returns status and body. -/
def chatHandler {V : Type} (decode : Str → Except Str V) (chatSchema : Str)
    (formMessage body : Str) (outcome : Outcome) : Nat × ChatBody V :=
  let msg := if formMessage = [] then body else formMessage
  if msg = [] then (400, .errBody (strL "missing message"))
  else if chatSchema ≠ [] then
    match ChatStructuredJSON decode chatSchema outcome with
    | (res, _, some e) => (422, .dataParseError res e)
    | (res, some v, none) => (200, .dataParsed res v)
    | (res, none, none) => (200, .dataOnly res)
  else
    match ChatStructured outcome with
    | .error e => (500, .errBody e)
    | .ok res => (200, .dataOnly res)

/-! ### Section assignment and per-section characterisations

These definitions express, independently of the parser's loop state, which
(CR-stripped) lines belong to each section and what each section computes
from its lines; the factoring theorems below prove the parser equal to
them. -/

/-- The final section after scanning a list of raw lines. -/
def endSec (sec : Sec) : List Str → Sec
  | [] => sec
  | l :: ls =>
    match markerSec (trimSpace (trimRightWhile (fun c => c = '\r') l)) with
    | some s2 => endSec s2 ls
    | none => endSec sec ls

/-- The CR-stripped non-marker lines that the scan assigns to the target
section, starting from the given section. -/
def secLines (target : Sec) (sec : Sec) : List Str → List Str
  | [] => []
  | l :: ls =>
    let line := trimRightWhile (fun c => c = '\r') l
    match markerSec (trimSpace line) with
    | some s2 => secLines target s2 ls
    | none =>
      if sec = target then line :: secLines target sec ls
      else secLines target sec ls

/-- The lines of a section of a raw document. -/
def rawSecLines (raw : Str) (target : Sec) : List Str :=
  secLines target Sec.start (splitNL raw)

/-- The INSTRUCTIONS accumulation over a whole line list. -/
def instrJoin (ls : List Str) : Str := ls.foldl instrStep []

/-- The ANSWER accumulation over a whole line list. -/
def ansJoin (ls : List Str) : Str := ls.foldl ansStep []

/-- The CRITERIA accumulation over a whole line list. -/
def critRun (ls : List Str) : List Criterion × Option Criterion :=
  ls.foldl critStep ([], none)

/-- The QUESTION accumulation over a whole line list. -/
def qRun (ls : List Str) : Str × List Str := ls.foldl qStep ([], [])

/-- Does a line match the criterion-header pattern (after trimming)? -/
def isHeader (l : Str) : Bool := (critMatch (trimSpace l)).isSome

/-- The declared maximum score of a header line. -/
def headerScore (l : Str) : Score :=
  match critMatch (trimSpace l) with
  | some (_, _, numS) => atofSafe numS
  | none => ⟨0, 0⟩

/-- Fuel-driven split of a section's lines into header-led segments. -/
def hdrSegsAux : Nat → List Str → List (Str × List Str)
  | 0, _ => []
  | fuel + 1, ls =>
    match ls.dropWhile (fun l => !isHeader l) with
    | [] => []
    | h :: rest =>
      (h, rest.takeWhile (fun l => !isHeader l)) ::
        hdrSegsAux fuel (rest.dropWhile (fun l => !isHeader l))

/-- Split a section's lines into one segment per header line: the header
itself and the lines under it up to the next header; lines before the
first header belong to no segment. -/
def hdrSegs (ls : List Str) : List (Str × List Str) := hdrSegsAux ls.length ls

/-- The criterion a header-led segment describes: captures of the header,
plus one item per item-matching line of the segment. -/
def mkFromSeg (p : Str × List Str) : Criterion :=
  match critMatch (trimSpace p.1) with
  | some (ds, ti, numS) =>
    ⟨atoiSafe ds, ti, atofSafe numS,
     (p.2.filterMap (fun l => itemMatch (trimSpace l))).map (fun q => ⟨q.1, atofSafe q.2⟩)⟩
  | none => ⟨0, [], ⟨0, 0⟩, []⟩

/-- The number of item-matching lines of a segment. -/
def segItemCount (seg : List Str) : Nat :=
  (seg.filterMap (fun l => itemMatch (trimSpace l))).length

/-! ### Support lemmas: splitNL -/

theorem splitNL_ne_nil (s : Str) : splitNL s ≠ [] := by
  induction s with
  | nil => simp [splitNL]
  | cons c r ih =>
    simp only [splitNL]
    split
    · simp
    · cases h : splitNL r with
      | nil => simp
      | cons a l => simp

theorem splitNL_append (xs ys : Str) :
    splitNL (xs ++ '\n' :: ys) = splitNL xs ++ splitNL ys := by
  induction xs with
  | nil => simp [splitNL]
  | cons c xs ih =>
    by_cases hc : c = '\n'
    · subst hc
      simp [splitNL, ih]
    · simp only [List.cons_append, splitNL, if_neg hc]
      cases h : splitNL xs with
      | nil => exact absurd h (splitNL_ne_nil xs)
      | cons a l =>
        simp only [List.append_eq]
        rw [ih, h]
        simp

theorem splitNL_no_newline (xs : Str) (h : '\n' ∉ xs) : splitNL xs = [xs] := by
  induction xs with
  | nil => simp [splitNL]
  | cons c r ih =>
    have hc : c ≠ '\n' := fun hh => h (hh ▸ List.mem_cons_self c r)
    have hr : '\n' ∉ r := fun hh => h (List.mem_cons_of_mem c hh)
    simp [splitNL, hc, ih hr]

theorem mem_splitNL_no_newline (s : Str) : ∀ l ∈ splitNL s, '\n' ∉ l := by
  induction s with
  | nil => simp [splitNL]
  | cons c r ih =>
    by_cases hc : c = '\n'
    · subst hc
      simp only [splitNL, if_pos rfl]
      intro l hl
      rcases List.mem_cons.mp hl with h | h
      · simp [h]
      · exact ih l h
    · simp only [splitNL, if_neg hc]
      cases h : splitNL r with
      | nil => exact absurd h (splitNL_ne_nil r)
      | cons a l =>
        intro x hx
        rcases List.mem_cons.mp hx with h1 | h1
        · subst h1
          intro hmem
          rcases List.mem_cons.mp hmem with h2 | h2
          · exact hc h2.symm
          · exact ih a (h ▸ List.mem_cons_self a l) h2
        · exact ih x (h ▸ List.mem_cons_of_mem a h1)

/-! ### Support lemmas: decimal rendering -/

theorem natToDecAux_irrel : ∀ f1 f2 n, n < f1 → n < f2 →
    natToDecAux f1 n = natToDecAux f2 n := by
  intro f1
  induction f1 with
  | zero => intro f2 n h1; omega
  | succ f ih =>
    intro f2 n h1 h2
    cases f2 with
    | zero => omega
    | succ g =>
      simp only [natToDecAux]
      by_cases h10 : n < 10
      · simp [h10]
      · have hd : n / 10 < n := Nat.div_lt_self (by omega) (by omega)
        simp only [if_neg h10]
        rw [ih g (n / 10) (by omega) (by omega)]

theorem natToDec_eq (n : Nat) : natToDec n =
    if n < 10 then [digitChar n] else natToDec (n / 10) ++ [digitChar (n % 10)] := by
  by_cases h10 : n < 10
  · simp [natToDec, natToDecAux, h10]
  · have hd : n / 10 < n := Nat.div_lt_self (by omega) (by omega)
    have h1 : natToDecAux (n + 1) n = natToDecAux n (n / 10) ++ [digitChar (n % 10)] := by
      simp [natToDecAux, h10]
    rw [if_neg h10]
    show natToDecAux (n + 1) n = natToDec (n / 10) ++ [digitChar (n % 10)]
    rw [h1, natToDecAux_irrel n (n / 10 + 1) (n / 10) (by omega) (by omega)]
    rfl

theorem digitChar_isDigit (k : Nat) (h : k < 10) : (digitChar k).isDigit = true := by
  interval_cases k <;> decide

theorem digitVal_digitChar (k : Nat) (h : k < 10) : digitVal (digitChar k) = k := by
  interval_cases k <;> decide

theorem natToDec_digits (n : Nat) : ∀ c ∈ natToDec n, c.isDigit = true := by
  induction n using Nat.strong_induction_on with
  | _ n ih =>
    rw [natToDec_eq]
    by_cases h10 : n < 10
    · simp only [if_pos h10]
      intro c hc
      rcases List.mem_singleton.mp hc with h
      exact h ▸ digitChar_isDigit n h10
    · have hd : n / 10 < n := Nat.div_lt_self (by omega) (by omega)
      simp only [if_neg h10]
      intro c hc
      rcases List.mem_append.mp hc with h | h
      · exact ih (n / 10) hd c h
      · rcases List.mem_singleton.mp h with h
        exact h ▸ digitChar_isDigit (n % 10) (Nat.mod_lt n (by omega))

theorem natToDec_ne_nil (n : Nat) : natToDec n ≠ [] := by
  rw [natToDec_eq]
  by_cases h10 : n < 10 <;> simp [h10]

theorem digitsVal_append_one (a : Str) (c : Char) :
    digitsVal (a ++ [c]) = 10 * digitsVal a + digitVal c := by
  simp [digitsVal, List.foldl_append]

theorem digitsVal_natToDec (n : Nat) : digitsVal (natToDec n) = n := by
  induction n using Nat.strong_induction_on with
  | _ n ih =>
    rw [natToDec_eq]
    by_cases h10 : n < 10
    · simp only [if_pos h10]
      have : digitsVal [digitChar n] = digitVal (digitChar n) := by
        simp [digitsVal]
      rw [this, digitVal_digitChar n h10]
    · have hd : n / 10 < n := Nat.div_lt_self (by omega) (by omega)
      simp only [if_neg h10]
      rw [digitsVal_append_one, ih (n / 10) hd,
        digitVal_digitChar (n % 10) (Nat.mod_lt n (by omega))]
      omega

/-! ### The factoring of the parser into per-section folds -/

theorem foldl_pstep (ls : List Str) : ∀ st : PState,
    ls.foldl pstep st =
      ⟨endSec st.sec ls,
       (secLines Sec.instr st.sec ls).foldl instrStep st.instrAcc,
       (secLines Sec.ans st.sec ls).foldl ansStep st.answerAcc,
       ((secLines Sec.crit st.sec ls).foldl critStep (st.criteria, st.current)).1,
       ((secLines Sec.crit st.sec ls).foldl critStep (st.criteria, st.current)).2,
       ((secLines Sec.quest st.sec ls).foldl qStep (st.questionTitle, st.bullets)).1,
       ((secLines Sec.quest st.sec ls).foldl qStep (st.questionTitle, st.bullets)).2⟩ := by
  induction ls with
  | nil => intro st; simp [endSec, secLines]
  | cons l ls ih =>
    intro st
    simp only [List.foldl_cons]
    rw [ih (pstep st l)]
    cases hm : markerSec (trimSpace (trimRightWhile (fun c => c = '\r') l)) with
    | some s2 =>
      simp [pstep, endSec, secLines, hm]
    | none =>
      cases hsec : st.sec with
      | start => simp [pstep, endSec, secLines, hm, hsec]
      | instr => simp [pstep, endSec, secLines, hm, hsec]
      | crit => simp [pstep, endSec, secLines, hm, hsec]
      | quest => simp [pstep, endSec, secLines, hm, hsec]
      | ans => simp [pstep, endSec, secLines, hm, hsec]

theorem parse_factored (raw : Str) :
    ParseRawEvaluationTemplate raw =
      (trimSpace (instrJoin (rawSecLines raw Sec.instr)),
       sealCur (critRun (rawSecLines raw Sec.crit)).1 (critRun (rawSecLines raw Sec.crit)).2,
       (qRun (rawSecLines raw Sec.quest)).1,
       (qRun (rawSecLines raw Sec.quest)).2.map trimSpace,
       trimSpace (ansJoin (rawSecLines raw Sec.ans))) := by
  show (trimSpace ((splitNL raw).foldl pstep initPS).instrAcc, _, _, _, _) = _
  rw [foldl_pstep]
  rfl

/-! ### Builder unfolding -/

theorem build_def (raw : Str) :
    BuildCriterionTemplatesFromRaw raw =
      (if (ParseRawEvaluationTemplate raw).2.1 = [] then Except.error noCriteriaMsg
       else Except.ok ((sortStable (withKeys (ParseRawEvaluationTemplate raw).2.1)).map
         (renderTemplate (ParseRawEvaluationTemplate raw).1
           (ParseRawEvaluationTemplate raw).2.2.1
           (((ParseRawEvaluationTemplate raw).2.2.2.1.map (fun b =>
             (trimSpace b).dropWhile
               (fun c => c = '•' || c = '-' || c = '*' || c = ' ' || c = '\t'))).filter
             (fun b => b ≠ []))
           (ParseRawEvaluationTemplate raw).2.2.2.2))) := by
  unfold BuildCriterionTemplatesFromRaw
  rcases h : ParseRawEvaluationTemplate raw with ⟨i, cs, qt, qb, a⟩
  rfl

/-! ### C3: the builder fails exactly on an empty criteria list -/

/-- Claim C3: BuildCriterionTemplatesFromRaw returns an error exactly when
ParseRawEvaluationTemplate yields zero criteria, the error is always
"no criteria parsed", and in particular the empty document fails with it. -/
theorem C3_build_error_iff_no_criteria :
    (∀ raw : Str,
      ((∃ e, BuildCriterionTemplatesFromRaw raw = Except.error e) ↔
        (ParseRawEvaluationTemplate raw).2.1 = []) ∧
      (∀ e, BuildCriterionTemplatesFromRaw raw = Except.error e → e = noCriteriaMsg)) ∧
    BuildCriterionTemplatesFromRaw (strL "") = Except.error noCriteriaMsg := by
  refine ⟨fun raw => ?_, by decide⟩
  rw [build_def raw]
  by_cases hc : (ParseRawEvaluationTemplate raw).2.1 = []
  · simp [hc]
  · simp [hc]

/-- Witness for C3 at a concrete input: the empty document parses to no
criteria, and the equivalence together with the error-message fact applies
there. -/
theorem C3_witness :
    (ParseRawEvaluationTemplate (strL "")).2.1 = [] ∧
    (∃ e, BuildCriterionTemplatesFromRaw (strL "") = Except.error e) ∧
    (∀ e, BuildCriterionTemplatesFromRaw (strL "") = Except.error e → e = noCriteriaMsg) := by
  refine ⟨by decide, ?_, (C3_build_error_iff_no_criteria.1 (strL "")).2⟩
  exact ((C3_build_error_iff_no_criteria.1 (strL "")).1).mpr (by decide)

/-! ### C10: parse failure keeps the populated result, transport failure
does not -/

/-- Claim C10: when the transport call succeeds (with at least one choice)
but the reply text fails to decode as JSON, ChatStructuredJSON returns the
fully populated result (text, model, finish reason, token count) with no
parsed value and the decode error; a failed transport call instead returns
the zero result with the transport error. -/
theorem C10_parse_error_keeps_text {V : Type} (decode : Str → Except Str V) (schema : Str)
    (hschema : schema = [] ∨ ∃ v0, decode schema = Except.ok v0) :
    (∀ resp ch rest perr, resp.choices = ch :: rest → decode ch.content = Except.error perr →
      ChatStructuredJSON decode schema (Outcome.ok resp) =
        (⟨ch.content, resp.model, ch.finishReason, resp.totalTokens⟩, none, some perr)) ∧
    (∀ e, ChatStructuredJSON decode schema (Outcome.err e) =
      (emptyChatResult, none, some e)) := by
  constructor
  · intro resp ch rest perr hch hperr
    have hne : resp.choices ≠ [] := by rw [hch]; exact List.cons_ne_nil ch rest
    have hcs : ChatStructured (Outcome.ok resp) =
        Except.ok ⟨ch.content, resp.model, ch.finishReason, resp.totalTokens⟩ := by
      simp only [ChatStructured, if_neg hne]
      rw [hch]
    rcases hschema with hs | ⟨v0, hv0⟩
    · subst hs
      simp [ChatStructuredJSON, hcs, hperr]
    · by_cases hs : schema = []
      · subst hs
        simp [ChatStructuredJSON, hcs, hperr]
      · simp [ChatStructuredJSON, hs, hv0, hcs, hperr]
  · intro e
    rcases hschema with hs | ⟨v0, hv0⟩
    · subst hs
      simp [ChatStructuredJSON, ChatStructured]
    · by_cases hs : schema = []
      · subst hs
        simp [ChatStructuredJSON, ChatStructured]
      · simp [ChatStructuredJSON, hs, hv0, ChatStructured]

/-- A stand-in JSON decoder for concrete evaluations: accepts exactly the
schema text 0 (a valid JSON document) and rejects everything else. -/
def toyDecode : Str → Except Str Unit := fun s =>
  if s = strL "0" then Except.ok () else Except.error (strL "not valid JSON")

/-- Witness for C10 at concrete inputs. -/
theorem C10_witness :
    ChatStructuredJSON toyDecode (strL "0")
        (Outcome.ok ⟨strL "m", [⟨strL "oops", strL "stop"⟩], 7⟩) =
      (⟨strL "oops", strL "m", strL "stop", 7⟩, none, some (strL "not valid JSON")) ∧
    ChatStructuredJSON toyDecode (strL "0") (Outcome.err (strL "boom")) =
      (emptyChatResult, none, some (strL "boom")) := by
  constructor
  · exact (C10_parse_error_keeps_text toyDecode (strL "0") (Or.inr ⟨(), by decide⟩)).1
      ⟨strL "m", [⟨strL "oops", strL "stop"⟩], 7⟩ ⟨strL "oops", strL "stop"⟩ [] _
      rfl (by decide)
  · exact (C10_parse_error_keeps_text toyDecode (strL "0") (Or.inr ⟨(), by decide⟩)).2
      (strL "boom")

/-! ### C2: status codes of the /api/chat handler with a configured schema -/

/-- Counterexample to claim C2 as stated: with a server-side schema
configured (the valid JSON document 0) and a non-empty message, a failed
transport call is answered with status 422 (parse-error body carrying the
transport error and the zero result), not with status 500 as the claim
requires for transport failures. -/
theorem C2_cex :
    chatHandler toyDecode (strL "0") (strL "hi") [] (Outcome.err (strL "boom")) =
      (422, ChatBody.dataParseError emptyChatResult (strL "boom")) ∧
    (422 : Nat) ≠ 500 := by
  constructor
  · rfl
  · decide

/-- Claim C2 as amended: with a non-empty message and a configured schema,
the handler answers 422 with body (data, parsed: null, parse_error) exactly
when ChatStructuredJSON reports any error — a JSON-parse failure of the
reply, but equally a transport failure, an empty choice list or an invalid
schema — and 200 with (data, parsed) when it succeeds; without a schema it
answers 500 with the error on a failed chat call and 200 with (data)
otherwise; an empty message is answered 400 (missing message). -/
theorem C2_amended {V : Type} (decode : Str → Except Str V)
    (schema form body : Str) (outcome : Outcome) :
    (((if form = [] then body else form) = []) →
      chatHandler decode schema form body outcome =
        (400, ChatBody.errBody (strL "missing message"))) ∧
    (((if form = [] then body else form) ≠ []) → schema ≠ [] →
      (∀ res e, ChatStructuredJSON decode schema outcome = (res, none, some e) →
        chatHandler decode schema form body outcome = (422, ChatBody.dataParseError res e)) ∧
      (∀ res v, ChatStructuredJSON decode schema outcome = (res, some v, none) →
        chatHandler decode schema form body outcome = (200, ChatBody.dataParsed res v)) ∧
      ((chatHandler decode schema form body outcome).1 = 422 ↔
        (ChatStructuredJSON decode schema outcome).2.2.isSome) ∧
      (∀ e, outcome = Outcome.err e → (∃ v0, decode schema = Except.ok v0) →
        chatHandler decode schema form body outcome =
          (422, ChatBody.dataParseError emptyChatResult e))) ∧
    (((if form = [] then body else form) ≠ []) → schema = [] →
      (∀ e, ChatStructured outcome = Except.error e →
        chatHandler decode schema form body outcome = (500, ChatBody.errBody e)) ∧
      (∀ res, ChatStructured outcome = Except.ok res →
        chatHandler decode schema form body outcome = (200, ChatBody.dataOnly res))) := by
  refine ⟨?_, ?_, ?_⟩
  · intro hm
    simp [chatHandler, hm]
  · intro hm hs
    have h422 : ∀ res e, ChatStructuredJSON decode schema outcome = (res, none, some e) →
        chatHandler decode schema form body outcome = (422, ChatBody.dataParseError res e) := by
      intro res e hj
      simp only [chatHandler, if_neg hm, if_pos hs, hj]
    have h200 : ∀ res v, ChatStructuredJSON decode schema outcome = (res, some v, none) →
        chatHandler decode schema form body outcome = (200, ChatBody.dataParsed res v) := by
      intro res v hj
      simp only [chatHandler, if_neg hm, if_pos hs, hj]
    refine ⟨h422, h200, ?_, ?_⟩
    · rcases hj : ChatStructuredJSON decode schema outcome with ⟨res, pv, pe⟩
      cases pe with
      | some e =>
        rcases pv with _ | v
        · rw [h422 res e hj]; simp
        · simp only [chatHandler, if_neg hm, if_pos hs, hj]
          simp
      | none =>
        cases pv with
        | some v => rw [h200 res v hj]; simp
        | none =>
          simp only [chatHandler, if_neg hm, if_pos hs, hj]
          simp
    · rintro e hout ⟨v0, hv0⟩
      subst hout
      exact h422 emptyChatResult e (by simp [ChatStructuredJSON, hs, hv0, ChatStructured])
  · intro hm hs
    subst hs
    constructor
    · intro e hc
      simp [chatHandler, hm, hc]
    · intro res hc
      simp [chatHandler, hm, hc]

/-- Witness for C2 at concrete inputs: a transport failure under a decoding
schema is answered 422, the same failure without a schema is answered 500,
and an empty message is answered 400. -/
theorem C2_witness :
    chatHandler toyDecode (strL "0") (strL "hi") [] (Outcome.err (strL "boom")) =
      (422, ChatBody.dataParseError emptyChatResult (strL "boom")) ∧
    chatHandler toyDecode [] (strL "hi") [] (Outcome.err (strL "boom")) =
      (500, ChatBody.errBody (strL "boom")) ∧
    chatHandler toyDecode (strL "0") [] [] (Outcome.err (strL "boom")) =
      (400, ChatBody.errBody (strL "missing message")) := by
  refine ⟨?_, ?_, ?_⟩
  · exact ((C2_amended toyDecode (strL "0") (strL "hi") [] (Outcome.err (strL "boom"))).2.1
      (by decide) (by decide)).2.2.2 (strL "boom") rfl ⟨(), by decide⟩
  · exact ((C2_amended toyDecode [] (strL "hi") [] (Outcome.err (strL "boom"))).2.2
      (by decide) rfl).1 (strL "boom") rfl
  · exact (C2_amended toyDecode (strL "0") [] [] (Outcome.err (strL "boom"))).1 (by decide)

/-! ### C4: stable ordering by the effective order key -/

theorem insertLE_perm (x : Nat × Criterion) (l : List (Nat × Criterion)) :
    List.Perm (insertLE x l) (x :: l) := by
  induction l with
  | nil => exact List.Perm.refl _
  | cons y ys ih =>
    simp only [insertLE]
    split
    · exact List.Perm.refl _
    · exact (ih.cons y).trans (List.Perm.swap x y ys)

theorem sortStable_perm (l : List (Nat × Criterion)) : List.Perm (sortStable l) l := by
  induction l with
  | nil => exact List.Perm.refl _
  | cons x xs ih => exact (insertLE_perm x (sortStable xs)).trans (ih.cons x)

theorem insertLE_pairwise (x : Nat × Criterion) (l : List (Nat × Criterion))
    (h : l.Pairwise (fun a b => a.1 ≤ b.1)) :
    (insertLE x l).Pairwise (fun a b => a.1 ≤ b.1) := by
  induction l with
  | nil => simp [insertLE]
  | cons y ys ih =>
    rcases List.pairwise_cons.mp h with ⟨hy, hys⟩
    simp only [insertLE]
    split
    · rename_i hxy
      refine List.pairwise_cons.mpr ⟨?_, h⟩
      intro z hz
      rcases List.mem_cons.mp hz with h1 | h1
      · subst h1; exact hxy
      · exact Nat.le_trans hxy (hy z h1)
    · rename_i hxy
      refine List.pairwise_cons.mpr ⟨?_, ih hys⟩
      intro z hz
      rcases List.mem_cons.mp ((insertLE_perm x ys).mem_iff.mp hz) with h1 | h1
      · subst h1; exact Nat.le_of_lt (Nat.lt_of_not_le hxy)
      · exact hy z h1

theorem sortStable_pairwise (l : List (Nat × Criterion)) :
    (sortStable l).Pairwise (fun a b => a.1 ≤ b.1) := by
  induction l with
  | nil => simp [sortStable]
  | cons x xs ih => exact insertLE_pairwise x (sortStable xs) ih

theorem insertLE_filter (x : Nat × Criterion) (l : List (Nat × Criterion)) (k : Nat) :
    (insertLE x l).filter (fun p => p.1 == k) =
      if x.1 = k then x :: l.filter (fun p => p.1 == k)
      else l.filter (fun p => p.1 == k) := by
  induction l with
  | nil =>
    by_cases hx : x.1 = k <;> simp [insertLE, List.filter_cons, hx]
  | cons y ys ih =>
    simp only [insertLE]
    split
    · rename_i hxy
      by_cases hx : x.1 = k <;> simp [List.filter_cons, hx]
    · rename_i hxy
      have hyx : y.1 < x.1 := Nat.lt_of_not_le hxy
      by_cases hx : x.1 = k
      · have hy : ¬ y.1 = k := by omega
        simp [List.filter_cons, hy, ih, hx]
      · by_cases hy : y.1 = k <;> simp [List.filter_cons, hy, ih, hx]

theorem sortStable_filter (l : List (Nat × Criterion)) (k : Nat) :
    (sortStable l).filter (fun p => p.1 == k) = l.filter (fun p => p.1 == k) := by
  induction l with
  | nil => rfl
  | cons x xs ih =>
    show (insertLE x (sortStable xs)).filter _ = _
    rw [insertLE_filter]
    by_cases hx : x.1 = k <;> simp [List.filter_cons, hx, ih]

/-- The reversed-index document of the claim: explicit indices 2 then 1 in
file order. -/
def revRaw : Str :=
  strL "===CRITERIA===\nCRITERIA 2: B (0-3 marks)\nCRITERIA 1: A (0-2 marks)\n"

/-- The builder's output on the reversed-index document. -/
def revTs : List CriterionTemplate :=
  (BuildCriterionTemplatesFromRaw revRaw).toOption.getD []

/-- Claim C4: the builder emits templates ordered by the effective order
key (the criterion's own index when non-zero, else one plus its position),
by a stable sort: the emitted sequence is a permutation of the keyed
criteria, its keys are non-decreasing, and the criteria holding any fixed
key keep their original relative order; in particular the reversed-index
document comes out in index order A before B, not file order. -/
theorem C4_stable_order :
    (∀ raw ts, BuildCriterionTemplatesFromRaw raw = Except.ok ts →
      ∃ sorted : List (Nat × Criterion),
        List.Perm sorted (withKeys (ParseRawEvaluationTemplate raw).2.1) ∧
        sorted.Pairwise (fun a b => a.1 ≤ b.1) ∧
        (∀ k, sorted.filter (fun p => p.1 == k) =
          (withKeys (ParseRawEvaluationTemplate raw).2.1).filter (fun p => p.1 == k)) ∧
        ts.map CriterionTemplate.title = sorted.map (fun p => p.2.title) ∧
        ts.map CriterionTemplate.maxScore = sorted.map (fun p => p.2.maxScore)) ∧
    (BuildCriterionTemplatesFromRaw revRaw).toOption.map (List.map CriterionTemplate.title) =
      some [strL "A", strL "B"] := by
  constructor
  · intro raw ts hok
    rw [build_def raw] at hok
    by_cases hc : (ParseRawEvaluationTemplate raw).2.1 = []
    · rw [if_pos hc] at hok
      exact absurd hok (by simp)
    · rw [if_neg hc] at hok
      have hts : ts = (sortStable (withKeys (ParseRawEvaluationTemplate raw).2.1)).map
          (renderTemplate (ParseRawEvaluationTemplate raw).1
            (ParseRawEvaluationTemplate raw).2.2.1
            (((ParseRawEvaluationTemplate raw).2.2.2.1.map (fun b =>
              (trimSpace b).dropWhile
                (fun c => c = '•' || c = '-' || c = '*' || c = ' ' || c = '\t'))).filter
              (fun b => b ≠ []))
            (ParseRawEvaluationTemplate raw).2.2.2.2) := by
        cases hok
        rfl
      refine ⟨sortStable (withKeys (ParseRawEvaluationTemplate raw).2.1),
        sortStable_perm _, sortStable_pairwise _, fun k => sortStable_filter _ k, ?_, ?_⟩
      · rw [hts, List.map_map]
        rfl
      · rw [hts, List.map_map]
        rfl
  · decide

/-- Witness for C4 at the reversed-index document. -/
theorem C4_witness :
    BuildCriterionTemplatesFromRaw revRaw = Except.ok revTs ∧
    ∃ sorted : List (Nat × Criterion),
      List.Perm sorted (withKeys (ParseRawEvaluationTemplate revRaw).2.1) ∧
      sorted.Pairwise (fun a b => a.1 ≤ b.1) ∧
      (∀ k, sorted.filter (fun p => p.1 == k) =
        (withKeys (ParseRawEvaluationTemplate revRaw).2.1).filter (fun p => p.1 == k)) ∧
      revTs.map CriterionTemplate.title = sorted.map (fun p => p.2.title) ∧
      revTs.map CriterionTemplate.maxScore = sorted.map (fun p => p.2.maxScore) :=
  ⟨by decide, C4_stable_order.1 revRaw revTs (by decide)⟩

/-! ### C6: formatScore -/

theorem trimRightWhile_append_one (p : Char → Bool) (xs : Str) (c : Char) :
    trimRightWhile p (xs ++ [c]) = if p c then trimRightWhile p xs else xs ++ [c] := by
  unfold trimRightWhile
  rw [List.reverse_append]
  simp only [List.reverse_cons, List.reverse_nil, List.nil_append, List.singleton_append,
    List.dropWhile_cons]
  by_cases hc : p c
  · simp [hc]
  · simp [hc]

theorem trimRightWhile_all (p : Char → Bool) (xs : Str) (h : ∀ c ∈ xs, p c = false) :
    trimRightWhile p xs = xs := by
  unfold trimRightWhile
  have hd : xs.reverse.dropWhile p = xs.reverse := by
    cases hr : xs.reverse with
    | nil => simp
    | cons c r =>
      have hc : p c = false := h c (by
        rw [← List.mem_reverse, hr]; exact List.mem_cons_self c r)
      simp [List.dropWhile_cons, hc]
  rw [hd, List.reverse_reverse]

theorem digitChar_ne_dot (k : Nat) (h : k < 10) : ¬ digitChar k = '.' := by
  interval_cases k <;> decide

theorem digitChar_ne_zero (k : Nat) (h0 : k ≠ 0) (h : k < 10) : ¬ digitChar k = '0' := by
  interval_cases k
  · exact absurd rfl h0
  all_goals decide

theorem natToDec_no_dot (n : Nat) : ∀ c ∈ natToDec n, (decide (c = '.')) = false := by
  intro c hc
  have hd := natToDec_digits n c hc
  by_cases h : c = '.'
  · subst h; simp at hd
  · simp [h]

theorem formatScore_shape (f : Score) (h : f.exp10 ≠ 0) :
    formatScore f =
      if times100round f % 100 = 0 then natToDec (times100round f / 100)
      else if times100round f % 10 = 0 then
        natToDec (times100round f / 100) ++ ['.', digitChar (times100round f % 100 / 10)]
      else natToDec (times100round f / 100) ++
        ['.', digitChar (times100round f % 100 / 10), digitChar (times100round f % 10)] := by
  set m := times100round f with hm
  have hmod : m % 100 % 10 = m % 10 := Nat.mod_mod_of_dvd m (by omega)
  have hfmt : fmt2 f =
      ((natToDec (m / 100) ++ ['.']) ++ [digitChar (m % 100 / 10)]) ++ [digitChar (m % 10)] := by
    simp [fmt2, twoDigits, ← hm, hmod]
  have hfs : formatScore f =
      trimRightWhile (fun c => c = '.') (trimRightWhile (fun c => c = '0') (fmt2 f)) := by
    simp [formatScore, h]
  rw [hfs, hfmt]
  by_cases h10 : m % 10 = 0
  · rw [h10]
    have hz : (fun c => decide (c = '0')) (digitChar 0) = true := by decide
    rw [show digitChar 0 = '0' from rfl]
    rw [trimRightWhile_append_one (fun c => c = '0') _ '0', if_pos (by decide)]
    by_cases h100 : m % 100 = 0
    · rw [if_pos h100, h100]
      rw [show (0 : Nat) / 10 = 0 from rfl, show digitChar 0 = '0' from rfl]
      rw [trimRightWhile_append_one (fun c => c = '0') _ '0', if_pos (by decide)]
      rw [trimRightWhile_append_one (fun c => c = '0') _ '.', if_neg (by decide)]
      rw [trimRightWhile_append_one (fun c => c = '.') _ '.', if_pos (by decide)]
      exact trimRightWhile_all _ _ (natToDec_no_dot (m / 100))
    · rw [if_neg h100, if_pos rfl]
      have hd1 : m % 100 / 10 ≠ 0 := by omega
      have hd1lt : m % 100 / 10 < 10 := by omega
      rw [trimRightWhile_append_one (fun c => c = '0') _ (digitChar (m % 100 / 10)),
        if_neg (by simp [digitChar_ne_zero _ hd1 hd1lt])]
      rw [show (natToDec (m / 100) ++ ['.']) ++ [digitChar (m % 100 / 10)] =
        natToDec (m / 100) ++ ['.', digitChar (m % 100 / 10)] from by simp]
      rw [show natToDec (m / 100) ++ ['.', digitChar (m % 100 / 10)] =
        (natToDec (m / 100) ++ ['.']) ++ [digitChar (m % 100 / 10)] from by simp]
      rw [trimRightWhile_append_one (fun c => c = '.') _ (digitChar (m % 100 / 10)),
        if_neg (by simp [digitChar_ne_dot _ hd1lt])]
  · have h100 : ¬ m % 100 = 0 := by omega
    rw [if_neg h100, if_neg h10]
    have hlt : m % 10 < 10 := by omega
    rw [trimRightWhile_append_one (fun c => c = '0') _ (digitChar (m % 10)),
      if_neg (by simp [digitChar_ne_zero _ h10 hlt])]
    rw [show ((natToDec (m / 100) ++ ['.']) ++ [digitChar (m % 100 / 10)]) ++ [digitChar (m % 10)] =
      (natToDec (m / 100) ++ ['.', digitChar (m % 100 / 10)]) ++ [digitChar (m % 10)] from by simp]
    rw [trimRightWhile_append_one (fun c => c = '.') _ (digitChar (m % 10)),
      if_neg (by simp [digitChar_ne_dot _ hlt])]
    simp

/-- Claim C6: formatScore renders an integer-valued score as bare digits
(no decimal point), and a non-integer score with at most two decimal
places, the trailing zeros and any trailing bare point stripped (so the
result is bare digits, or digits point one non-zero digit, or digits point
digit then non-zero digit); in particular 1.5, 2.0 and 1.25 render as 1.5,
2 and 1.25. -/
theorem C6_formatScore :
    formatScore (atofSafe (strL "1.5")) = strL "1.5" ∧
    formatScore (atofSafe (strL "2.0")) = strL "2" ∧
    formatScore (atofSafe (strL "1.25")) = strL "1.25" ∧
    (∀ f : Score, f.exp10 = 0 → ∀ c ∈ formatScore f, c.isDigit = true) ∧
    (∀ f : Score, f.exp10 ≠ 0 →
      (∃ m : Nat, formatScore f = natToDec m) ∨
      (∃ m d, 0 < d ∧ d < 10 ∧ formatScore f = natToDec m ++ ['.', digitChar d]) ∨
      (∃ m d1 d2, d1 < 10 ∧ 0 < d2 ∧ d2 < 10 ∧
        formatScore f = natToDec m ++ ['.', digitChar d1, digitChar d2])) := by
  refine ⟨by decide, by decide, by decide, ?_, ?_⟩
  · intro f hf c hc
    have : formatScore f = natToDec f.num := by simp [formatScore, hf]
    exact natToDec_digits f.num c (this ▸ hc)
  · intro f hf
    rw [formatScore_shape f hf]
    by_cases h100 : times100round f % 100 = 0
    · exact Or.inl ⟨times100round f / 100, by rw [if_pos h100]⟩
    · by_cases h10 : times100round f % 10 = 0
      · refine Or.inr (Or.inl ⟨times100round f / 100, times100round f % 100 / 10, ?_, ?_, ?_⟩)
        · have := Nat.mod_mod_of_dvd (times100round f) (show (10:Nat) ∣ 100 from by omega)
          omega
        · omega
        · rw [if_neg h100, if_pos h10]
      · refine Or.inr (Or.inr ⟨times100round f / 100, times100round f % 100 / 10,
          times100round f % 10, by omega, by omega, by omega, ?_⟩)
        rw [if_neg h100, if_neg h10]

/-- Witness for C6's quantified parts at concrete scores. -/
theorem C6_witness :
    (∀ c ∈ formatScore ⟨5, 0⟩, c.isDigit = true) ∧
    ((∃ m : Nat, formatScore ⟨15, 1⟩ = natToDec m) ∨
      (∃ m d, 0 < d ∧ d < 10 ∧ formatScore ⟨15, 1⟩ = natToDec m ++ ['.', digitChar d]) ∨
      (∃ m d1 d2, d1 < 10 ∧ 0 < d2 ∧ d2 < 10 ∧
        formatScore ⟨15, 1⟩ = natToDec m ++ ['.', digitChar d1, digitChar d2])) :=
  ⟨C6_formatScore.2.2.2.1 ⟨5, 0⟩ rfl, C6_formatScore.2.2.2.2 ⟨15, 1⟩ (by decide)⟩

/-! ### C7, C8, C9: section semantics -/

theorem qfold_titled (qt : Str) (hqt : qt ≠ []) (ls : List Str) : ∀ qb : List Str,
    ls.foldl qStep (qt, qb) =
      (qt, qb ++ ((ls.map trimSpace).filter (fun t => t ≠ [])).map bulletStore) := by
  induction ls with
  | nil => intro qb; simp
  | cons l ls ih =>
    intro qb
    simp only [List.foldl_cons, List.map_cons]
    by_cases hb : trimSpace l = []
    · rw [show qStep (qt, qb) l = (qt, qb) from by simp [qStep, hb]]
      rw [ih qb]
      simp [List.filter_cons, hb]
    · rw [show qStep (qt, qb) l = (qt, qb ++ [bulletStore (trimSpace l)]) from by
        simp [qStep, hb, hqt]]
      rw [ih (qb ++ [bulletStore (trimSpace l)])]
      simp [List.filter_cons, hb]

theorem qfold_untitled (ls : List Str) : ∀ qb : List Str,
    ls.foldl qStep ([], qb) =
      ((((ls.map trimSpace).filter (fun t => t ≠ [])).dropWhile
          (fun t => isBulletLine t)).headD [],
       qb ++ (((ls.map trimSpace).filter (fun t => t ≠ [])).takeWhile
          (fun t => isBulletLine t) ++
        (((ls.map trimSpace).filter (fun t => t ≠ [])).dropWhile
          (fun t => isBulletLine t)).drop 1).map bulletStore) := by
  induction ls with
  | nil => intro qb; simp
  | cons l ls ih =>
    intro qb
    simp only [List.foldl_cons, List.map_cons]
    by_cases hb : trimSpace l = []
    · rw [show qStep ([], qb) l = ([], qb) from by simp [qStep, hb]]
      rw [ih qb]
      simp [List.filter_cons, hb]
    · by_cases hbl : isBulletLine (trimSpace l) = true
      · rw [show qStep ([], qb) l = ([], qb ++ [bulletStore (trimSpace l)]) from by
          simp [qStep, hb, hbl]]
        rw [ih (qb ++ [bulletStore (trimSpace l)])]
        simp [List.filter_cons, hb, List.takeWhile_cons, List.dropWhile_cons, hbl]
      · rw [show qStep ([], qb) l = (trimSpace l, qb) from by
          simp [qStep, hb, hbl]]
        rw [qfold_titled (trimSpace l) hb ls qb]
        simp [List.filter_cons, hb, List.takeWhile_cons, List.dropWhile_cons, hbl]

/-- Claim C9: in the QUESTION section, the first non-bullet (non-blank,
trimmed) line becomes the question title and only that one; every other
line — the bullet lines before and after it, and every later non-bullet
line — is stored in the bullets list in order, bullet lines with their
leading marker run and surrounding white space stripped, later non-bullet
lines as their trimmed text (the parser's final pass trims every stored
bullet once more). -/
theorem C9_question (raw : Str) :
    (ParseRawEvaluationTemplate raw).2.2.1 =
      ((((rawSecLines raw Sec.quest).map trimSpace).filter (fun t => t ≠ [])).dropWhile
        (fun t => isBulletLine t)).headD [] ∧
    (ParseRawEvaluationTemplate raw).2.2.2.1 =
      ((((rawSecLines raw Sec.quest).map trimSpace).filter (fun t => t ≠ [])).takeWhile
          (fun t => isBulletLine t) ++
        ((((rawSecLines raw Sec.quest).map trimSpace).filter (fun t => t ≠ [])).dropWhile
          (fun t => isBulletLine t)).drop 1).map
        (fun t => trimSpace (bulletStore t)) := by
  have hf := parse_factored raw
  have hq := qfold_untitled (rawSecLines raw Sec.quest) []
  constructor
  · rw [show (ParseRawEvaluationTemplate raw).2.2.1 = (qRun (rawSecLines raw Sec.quest)).1 from by
      rw [hf]]
    simp only [qRun]
    rw [hq]
  · rw [show (ParseRawEvaluationTemplate raw).2.2.2.1 =
      (qRun (rawSecLines raw Sec.quest)).2.map trimSpace from by rw [hf]]
    simp only [qRun]
    rw [hq]
    simp [List.map_map]
    rfl

/-- Claim C7: the parser's instructions output is exactly the fold of the
INSTRUCTIONS-section lines in which each blank line contributes one
newline, each non-blank line contributes its trimmed text preceded by a
separating newline when something was already accumulated, with the whole
result trimmed at the end (instrStep and instrJoin spell out that fold). -/
theorem C7_instructions (raw : Str) :
    (ParseRawEvaluationTemplate raw).1 = trimSpace (instrJoin (rawSecLines raw Sec.instr)) := by
  rw [parse_factored raw]

/-- Counterexample to claim C8 as stated: a whitespace-only line of the
ANSWER section does not keep its original content — the parser collapses
it to a bare newline — so the answer for a / one-space-line / b is the
three lines a, empty, b, not the verbatim join (which the whole-section
trim would have left unchanged). -/
theorem C8_cex :
    (ParseRawEvaluationTemplate (strL "===ANSWER===\na\n \nb")).2.2.2.2 = strL "a\n\nb" ∧
    trimSpace (strL "a\n \nb") = strL "a\n \nb" ∧
    strL "a\n\nb" ≠ strL "a\n \nb" := by
  refine ⟨by decide, by decide, by decide⟩

/-- Claim C8 as amended: in the ANSWER section lines are joined with
newlines and non-blank lines keep their original (CR-stripped, untrimmed)
content, but each blank — whitespace-only — line contributes exactly one
newline, its white space dropped; the whole section is trimmed once at the
very start and end (ansStep and ansJoin spell out that fold). -/
theorem C8_answer_amended (raw : Str) :
    (ParseRawEvaluationTemplate raw).2.2.2.2 =
      trimSpace (ansJoin (rawSecLines raw Sec.ans)) := by
  rw [parse_factored raw]

/-! ### C5: criteria from header-led segments -/

theorem hdrSegsAux_nil (f : Nat) : hdrSegsAux f [] = [] := by
  cases f <;> simp [hdrSegsAux]

theorem dropWhile_len_le (p : Str → Bool) (ls : List Str) :
    (ls.dropWhile p).length ≤ ls.length :=
  (List.dropWhile_sublist p).length_le

theorem hdrSegsAux_irrel : ∀ f1 f2 (ls : List Str), ls.length ≤ f1 → ls.length ≤ f2 →
    hdrSegsAux f1 ls = hdrSegsAux f2 ls := by
  intro f1
  induction f1 with
  | zero =>
    intro f2 ls h1 h2
    have hnil : ls = [] := List.length_eq_zero.mp (Nat.le_antisymm h1 (Nat.zero_le _))
    subst hnil
    rw [hdrSegsAux_nil, hdrSegsAux_nil]
  | succ f ih =>
    intro f2 ls h1 h2
    cases f2 with
    | zero =>
      have hnil : ls = [] := List.length_eq_zero.mp (Nat.le_antisymm h2 (Nat.zero_le _))
      subst hnil
      rw [hdrSegsAux_nil, hdrSegsAux_nil]
    | succ g =>
      simp only [hdrSegsAux]
      cases hd : ls.dropWhile (fun l => !isHeader l) with
      | nil => rfl
      | cons h rest =>
        have hlen : rest.length + 1 ≤ ls.length := by
          have := dropWhile_len_le (fun l => !isHeader l) ls
          rw [hd] at this
          simpa using this
        have hr : (rest.dropWhile (fun l => !isHeader l)).length ≤ rest.length :=
          dropWhile_len_le _ rest
        dsimp only
        rw [ih g (rest.dropWhile (fun l => !isHeader l)) (by omega) (by omega)]

theorem hdrSegs_eq (ls : List Str) : hdrSegs ls =
    match ls.dropWhile (fun l => !isHeader l) with
    | [] => []
    | h :: rest =>
      (h, rest.takeWhile (fun l => !isHeader l)) ::
        hdrSegs (rest.dropWhile (fun l => !isHeader l)) := by
  cases ls with
  | nil => simp [hdrSegs, hdrSegsAux_nil]
  | cons a as =>
    show hdrSegsAux (as.length + 1) (a :: as) = _
    simp only [hdrSegsAux]
    cases hd : (a :: as).dropWhile (fun l => !isHeader l) with
    | nil => rfl
    | cons h rest =>
      have hlen : rest.length + 1 ≤ as.length + 1 := by
        have := dropWhile_len_le (fun l => !isHeader l) (a :: as)
        rw [hd] at this
        simpa using this
      have hr : (rest.dropWhile (fun l => !isHeader l)).length ≤ rest.length :=
        dropWhile_len_le _ rest
      dsimp only
      rw [hdrSegsAux_irrel as.length (rest.dropWhile (fun l => !isHeader l)).length
        (rest.dropWhile (fun l => !isHeader l)) (by omega) (by omega)]
      rfl

theorem dropWhile_head_false (p : Str → Bool) : ∀ (ls : List Str) (h : Str) (rest : List Str),
    ls.dropWhile p = h :: rest → p h = false := by
  intro ls
  induction ls with
  | nil => intro h rest hd; simp [List.dropWhile] at hd
  | cons a as ih =>
    intro h rest hd
    by_cases hp : p a
    · rw [List.dropWhile_cons, if_pos hp] at hd
      exact ih h rest hd
    · rw [List.dropWhile_cons, if_neg hp] at hd
      cases hd
      simpa using hp

theorem filter_dropWhile_not (p : Str → Bool) (ls : List Str) :
    ls.filter p = (ls.dropWhile (fun l => !p l)).filter p := by
  induction ls with
  | nil => rfl
  | cons a as ih =>
    by_cases hp : p a
    · rw [List.dropWhile_cons, if_neg (by simp [hp])]
    · rw [List.dropWhile_cons, if_pos (by simp [hp])]
      rw [List.filter_cons, if_neg (by simp [hp])]
      exact ih

theorem filter_takeWhile_not (p : Str → Bool) (ls : List Str) :
    (ls.takeWhile (fun l => !p l)).filter p = [] := by
  rw [List.filter_eq_nil_iff]
  intro a ha
  have := List.mem_takeWhile_imp ha
  simpa using this

theorem hdrSegs_fst_aux : ∀ n (ls : List Str), ls.length ≤ n →
    (hdrSegs ls).map Prod.fst = ls.filter (fun l => isHeader l) := by
  intro n
  induction n with
  | zero =>
    intro ls hlen
    have hnil : ls = [] := List.length_eq_zero.mp (Nat.le_antisymm hlen (Nat.zero_le _))
    subst hnil
    rfl
  | succ n ih =>
    intro ls hlen
    rw [hdrSegs_eq]
    cases hd : ls.dropWhile (fun l => !isHeader l) with
    | nil =>
      rw [filter_dropWhile_not (fun l => isHeader l) ls]
      rw [show ls.dropWhile (fun l => !isHeader l) = [] from hd]
      rfl
    | cons h rest =>
      have hlen2 : rest.length + 1 ≤ ls.length := by
        have := dropWhile_len_le (fun l => !isHeader l) ls
        rw [hd] at this
        simpa using this
      have hhead : isHeader h = true := by
        have := dropWhile_head_false (fun l => !isHeader l) ls h rest hd
        simpa using this
      simp only [List.map_cons]
      rw [ih (rest.dropWhile (fun l => !isHeader l))
        (by have := dropWhile_len_le (fun l => !isHeader l) rest; omega)]
      rw [filter_dropWhile_not (fun l => isHeader l) ls, hd]
      rw [List.filter_cons, if_pos (by simp [hhead])]
      congr 1
      conv_rhs => rw [← List.takeWhile_append_dropWhile (fun l => !isHeader l) rest]
      rw [List.filter_append, filter_takeWhile_not (fun l => isHeader l) rest]
      rfl

theorem hdrSegs_fst (ls : List Str) :
    (hdrSegs ls).map Prod.fst = ls.filter (fun l => isHeader l) :=
  hdrSegs_fst_aux ls.length ls (Nat.le_refl _)

theorem hdrSegs_head_isHeader : ∀ n (ls : List Str), ls.length ≤ n →
    ∀ p ∈ hdrSegs ls, isHeader p.1 = true := by
  intro n
  induction n with
  | zero =>
    intro ls hlen p hp
    have hnil : ls = [] := List.length_eq_zero.mp (Nat.le_antisymm hlen (Nat.zero_le _))
    subst hnil
    simp [hdrSegs, hdrSegsAux_nil] at hp
  | succ n ih =>
    intro ls hlen p hp
    rw [hdrSegs_eq] at hp
    cases hd : ls.dropWhile (fun l => !isHeader l) with
    | nil => rw [hd] at hp; simp at hp
    | cons h rest =>
      rw [hd] at hp
      have hlen2 : rest.length + 1 ≤ ls.length := by
        have := dropWhile_len_le (fun l => !isHeader l) ls
        rw [hd] at this
        simpa using this
      rcases List.mem_cons.mp hp with h1 | h1
      · subst h1
        have := dropWhile_head_false (fun l => !isHeader l) ls h rest hd
        simpa using this
      · exact ih (rest.dropWhile (fun l => !isHeader l))
          (by have := dropWhile_len_le (fun l => !isHeader l) rest; omega) p h1

theorem critStep_nonheader (cs : List Criterion) (c : Criterion) (l : Str)
    (hh : critMatch (trimSpace l) = none) :
    critStep (cs, some c) l =
      (cs, some { c with items := c.items ++
        (match itemMatch (trimSpace l) with
         | some q => [⟨q.1, atofSafe q.2⟩]
         | none => []) }) := by
  by_cases hb : trimSpace l = []
  · have hi : itemMatch ([] : Str) = none := by decide
    simp [critStep, hb, hi]
  · cases hi : itemMatch (trimSpace l) with
    | none => simp [critStep, hb, hh, hi]
    | some q => simp [critStep, hb, hh, hi]

theorem critFold_open (ls : List Str) : ∀ (cs : List Criterion) (c : Criterion),
    sealCur (ls.foldl critStep (cs, some c)).1 (ls.foldl critStep (cs, some c)).2 =
      cs ++ [{ c with items := c.items ++
        ((ls.takeWhile (fun l => !isHeader l)).filterMap
          (fun l => itemMatch (trimSpace l))).map (fun q => (⟨q.1, atofSafe q.2⟩ : CriterionItem)) }] ++
      (hdrSegs (ls.dropWhile (fun l => !isHeader l))).map mkFromSeg := by
  induction ls with
  | nil =>
    intro cs c
    simp [sealCur, hdrSegs, hdrSegsAux_nil]
  | cons l ls ih =>
    intro cs c
    simp only [List.foldl_cons]
    cases hh : critMatch (trimSpace l) with
    | some cap =>
      rcases cap with ⟨ds, ti, numS⟩
      have hb : trimSpace l ≠ [] := by
        intro hb
        rw [hb, show critMatch ([] : Str) = none from by decide] at hh
        cases hh
      have hstep : critStep (cs, some c) l =
          (cs ++ [c], some ⟨atoiSafe ds, ti, atofSafe numS, []⟩) := by
        simp [critStep, hb, hh]
      have hhdr : isHeader l = true := by simp [isHeader, hh]
      rw [hstep, ih (cs ++ [c]) ⟨atoiSafe ds, ti, atofSafe numS, []⟩]
      rw [List.takeWhile_cons, List.dropWhile_cons]
      rw [if_neg (by simp [hhdr]), if_neg (by simp [hhdr])]
      rw [hdrSegs_eq (l :: ls)]
      rw [show (l :: ls).dropWhile (fun l => !isHeader l) = l :: ls from by
        rw [List.dropWhile_cons, if_neg (by simp [hhdr])]]
      simp only [List.map_cons]
      rw [show mkFromSeg (l, ls.takeWhile (fun l => !isHeader l)) =
        { index := atoiSafe ds, title := ti, maxScore := atofSafe numS,
          items := ((ls.takeWhile (fun l => !isHeader l)).filterMap
            (fun l => itemMatch (trimSpace l))).map
              (fun q => (⟨q.1, atofSafe q.2⟩ : CriterionItem)) } from by
        simp [mkFromSeg, hh]]
      simp
    | none =>
      have hhdr : isHeader l = false := by simp [isHeader, hh]
      rw [critStep_nonheader cs c l hh]
      rw [ih cs _]
      rw [List.takeWhile_cons, List.dropWhile_cons]
      rw [if_pos (by simp [hhdr]), if_pos (by simp [hhdr])]
      cases hi : itemMatch (trimSpace l) with
      | none => simp [List.filterMap_cons, hi]
      | some q => simp [List.filterMap_cons, hi]

theorem critRun_segs (ls : List Str) :
    sealCur (critRun ls).1 (critRun ls).2 = (hdrSegs ls).map mkFromSeg := by
  induction ls with
  | nil => simp [critRun, sealCur, hdrSegs, hdrSegsAux_nil]
  | cons l ls ih =>
    show sealCur ((l :: ls).foldl critStep ([], none)).1
      ((l :: ls).foldl critStep ([], none)).2 = _
    simp only [List.foldl_cons]
    cases hh : critMatch (trimSpace l) with
    | some cap =>
      rcases cap with ⟨ds, ti, numS⟩
      have hb : trimSpace l ≠ [] := by
        intro hb
        rw [hb, show critMatch ([] : Str) = none from by decide] at hh
        cases hh
      have hstep : critStep (([] : List Criterion), (none : Option Criterion)) l =
          ([], some ⟨atoiSafe ds, ti, atofSafe numS, []⟩) := by
        simp [critStep, hb, hh]
      have hhdr : isHeader l = true := by simp [isHeader, hh]
      rw [hstep, critFold_open ls [] ⟨atoiSafe ds, ti, atofSafe numS, []⟩]
      rw [hdrSegs_eq (l :: ls)]
      rw [show (l :: ls).dropWhile (fun l => !isHeader l) = l :: ls from by
        rw [List.dropWhile_cons, if_neg (by simp [hhdr])]]
      simp only [List.map_cons]
      rw [show mkFromSeg (l, ls.takeWhile (fun l => !isHeader l)) =
        { index := atoiSafe ds, title := ti, maxScore := atofSafe numS,
          items := ((ls.takeWhile (fun l => !isHeader l)).filterMap
            (fun l => itemMatch (trimSpace l))).map
              (fun q => (⟨q.1, atofSafe q.2⟩ : CriterionItem)) } from by
        simp [mkFromSeg, hh]]
      simp
    | none =>
      have hhdr : isHeader l = false := by simp [isHeader, hh]
      have hstep : critStep (([] : List Criterion), (none : Option Criterion)) l = ([], none) := by
        by_cases hb : trimSpace l = []
        · simp [critStep, hb]
        · cases hi : itemMatch (trimSpace l) with
          | none => simp [critStep, hb, hh, hi]
          | some q => simp [critStep, hb, hh, hi]
      rw [hstep]
      show sealCur (critRun ls).1 (critRun ls).2 = _
      rw [ih]
      rw [hdrSegs_eq (l :: ls), hdrSegs_eq ls]
      rw [List.dropWhile_cons, if_pos (by simp [hhdr])]

theorem parse_criteria_eq (raw : Str) :
    (ParseRawEvaluationTemplate raw).2.1 =
      (hdrSegs (rawSecLines raw Sec.crit)).map mkFromSeg := by
  rw [parse_factored raw]
  exact critRun_segs _

/-- Claim C5: a document whose CRITERIA section contains N lines matching
the criterion-header pattern parses to exactly N criteria; the k-th
criterion's maximum score is the declared value captured from the k-th
header, and its item count is the number of item-pattern lines lying under
that header (before the next one). -/
theorem C5_headers (raw : Str) :
    (ParseRawEvaluationTemplate raw).2.1.length =
      ((rawSecLines raw Sec.crit).filter (fun l => isHeader l)).length ∧
    ∀ k : Nat,
      ((ParseRawEvaluationTemplate raw).2.1.get? k).map Criterion.maxScore =
        ((hdrSegs (rawSecLines raw Sec.crit)).get? k).map (fun p => headerScore p.1) ∧
      ((ParseRawEvaluationTemplate raw).2.1.get? k).map (fun c => c.items.length) =
        ((hdrSegs (rawSecLines raw Sec.crit)).get? k).map (fun p => segItemCount p.2) := by
  constructor
  · rw [parse_criteria_eq raw]
    rw [show ((rawSecLines raw Sec.crit).filter (fun l => isHeader l)) =
      (hdrSegs (rawSecLines raw Sec.crit)).map Prod.fst from (hdrSegs_fst _).symm]
    simp
  · intro k
    rw [parse_criteria_eq raw]
    rw [List.get?_map]
    cases hk : (hdrSegs (rawSecLines raw Sec.crit)).get? k with
    | none => simp
    | some p =>
      have hmem : p ∈ hdrSegs (rawSecLines raw Sec.crit) := List.get?_mem hk
      have hhdr : isHeader p.1 = true :=
        hdrSegs_head_isHeader (rawSecLines raw Sec.crit).length _ (Nat.le_refl _) p hmem
      simp only [isHeader, Option.isSome_iff_exists] at hhdr
      rcases hcm : critMatch (trimSpace p.1) with _ | ⟨ds, ti, numS⟩
      · rw [hcm] at hhdr
        simp at hhdr
      · constructor
        · simp [mkFromSeg, headerScore, hcm]
        · simp [mkFromSeg, segItemCount, hcm]

/-! ### C1 support: trims and decompositions -/

theorem trimRightWhile_subset (p : Char → Bool) (s : Str) :
    ∀ c ∈ trimRightWhile p s, c ∈ s := by
  intro c hc
  rw [trimRightWhile, List.mem_reverse] at hc
  exact List.mem_reverse.mp ((List.dropWhile_sublist p).subset hc)

theorem trimSpace_subset (s : Str) : ∀ c ∈ trimSpace s, c ∈ s := by
  intro c hc
  rw [trimSpace] at hc
  exact (List.dropWhile_sublist goIsSpace).subset (trimRightWhile_subset _ _ c hc)

theorem dropWhile_head_chr (p : Char → Bool) (s : Str) (c : Char) (r : Str)
    (h : s.dropWhile p = c :: r) : p c = false := by
  induction s with
  | nil => simp [List.dropWhile] at h
  | cons a as ih =>
    rw [List.dropWhile_cons] at h
    by_cases hp : p a
    · rw [if_pos hp] at h
      exact ih h
    · rw [if_neg hp] at h
      cases h
      simpa using hp

theorem trimRight_decomp (p : Char → Bool) (s : Str) :
    ∃ w, s = trimRightWhile p s ++ w ∧ ∀ c ∈ w, p c = true := by
  refine ⟨(s.reverse.takeWhile p).reverse, ?_, ?_⟩
  · conv_lhs => rw [← s.reverse_reverse, ← List.takeWhile_append_dropWhile p s.reverse,
      List.reverse_append]
    rfl
  · intro c hc
    rw [List.mem_reverse] at hc
    exact List.mem_takeWhile_imp hc

theorem all_dropWhile_nil (p : Char → Bool) (w : Str) (h : ∀ c ∈ w, p c = true) :
    w.dropWhile p = [] := List.dropWhile_eq_nil_iff.mpr h

theorem trimRightWhile_append_all (p : Char → Bool) (s w : Str) (h : ∀ c ∈ w, p c = true) :
    trimRightWhile p (s ++ w) = trimRightWhile p s := by
  rw [trimRightWhile, trimRightWhile, List.reverse_append, List.dropWhile_append]
  rw [all_dropWhile_nil p w.reverse (fun c hc => h c (List.mem_reverse.mp hc))]
  simp

theorem trimSpace_append_all (s w : Str) (h : ∀ c ∈ w, goIsSpace c = true) :
    trimSpace (s ++ w) = trimSpace s := by
  rw [trimSpace, trimSpace, List.dropWhile_append]
  by_cases hs : (s.dropWhile goIsSpace).isEmpty
  · rw [if_pos hs]
    rw [all_dropWhile_nil goIsSpace w h]
    have h2 : s.dropWhile goIsSpace = [] := by
      cases hq : s.dropWhile goIsSpace
      · rfl
      · rw [hq] at hs; simp at hs
    rw [h2]
  · rw [if_neg hs]
    exact trimRightWhile_append_all goIsSpace _ w h

theorem trimSpace_cons_space (c : Char) (hc : goIsSpace c = true) (s : Str) :
    trimSpace (c :: s) = trimSpace s := by
  rw [trimSpace, trimSpace, List.dropWhile_cons, if_pos hc]

theorem trimSpace_all_space (s : Str) (h : ∀ c ∈ s, goIsSpace c = true) :
    trimSpace s = [] := by
  rw [trimSpace, all_dropWhile_nil goIsSpace s h]
  rfl

theorem trimSpace_CR (s : Str) :
    trimSpace (trimRightWhile (fun c => c = '\r') s) = trimSpace s := by
  obtain ⟨w, hw, hall⟩ := trimRight_decomp (fun c => c = '\r') s
  conv_rhs => rw [hw]
  rw [trimSpace_append_all]
  intro c hc
  have h2 := hall c hc
  simp only [decide_eq_true_eq] at h2
  subst h2
  decide

theorem trimRightWhile_cons (p : Char → Bool) (c : Char) (s : Str) :
    trimRightWhile p (c :: s) =
      if trimRightWhile p s = [] then (if p c then [] else [c])
      else c :: trimRightWhile p s := by
  rw [trimRightWhile, List.reverse_cons, List.dropWhile_append]
  by_cases hs : (s.reverse.dropWhile p).isEmpty
  · have h2 : s.reverse.dropWhile p = [] := by
      cases hq : s.reverse.dropWhile p
      · rfl
      · rw [hq] at hs; simp at hs
    have h3 : trimRightWhile p s = [] := by rw [trimRightWhile, h2]; rfl
    rw [if_pos hs, if_pos h3]
    by_cases hc : p c
    · simp [List.dropWhile_cons, hc]
    · simp [List.dropWhile_cons, hc]
  · have h2 : s.reverse.dropWhile p ≠ [] := by
      intro hq
      rw [hq] at hs
      simp at hs
    have h3 : trimRightWhile p s ≠ [] := by
      rw [trimRightWhile]
      intro hq
      exact h2 (by simpa using congrArg List.reverse hq)
    rw [if_neg hs, if_neg h3, List.reverse_append]
    rfl

theorem trimSpace_head (c : Char) (hc : goIsSpace c = false) (s : Str) :
    ∃ r, trimSpace (c :: s) = c :: r := by
  rw [trimSpace, List.dropWhile_cons, if_neg (by simp [hc]), trimRightWhile_cons]
  by_cases h : trimRightWhile goIsSpace s = []
  · rw [if_pos h, if_neg (by simp [hc])]
    exact ⟨[], rfl⟩
  · rw [if_neg h]
    exact ⟨_, rfl⟩

theorem trimSpace_head_nonspace (s : Str) (c : Char)
    (h : (trimSpace s).head? = some c) : goIsSpace c = false := by
  obtain ⟨w, hw, _⟩ := trimRight_decomp goIsSpace (s.dropWhile goIsSpace)
  rw [trimSpace] at h
  cases hq : trimRightWhile goIsSpace (s.dropWhile goIsSpace) with
  | nil => rw [hq] at h; simp at h
  | cons d r =>
    rw [hq] at h hw
    have hd : s.dropWhile goIsSpace = d :: (r ++ w) := by rw [hw]; rfl
    have := dropWhile_head_chr goIsSpace s d (r ++ w) hd
    simp at h
    rw [← h]
    exact this

theorem trimSpace_getLast_nonspace (s : Str) (c : Char)
    (h : (trimSpace s).getLast? = some c) : goIsSpace c = false := by
  rw [trimSpace, trimRightWhile, List.getLast?_reverse] at h
  cases hq : (s.dropWhile goIsSpace).reverse.dropWhile goIsSpace with
  | nil => rw [hq] at h; simp at h
  | cons d r =>
    rw [hq] at h
    simp at h
    rw [← h]
    exact dropWhile_head_chr goIsSpace _ d r hq

theorem trimSpace_eq_self (s : Str)
    (hh : ∀ c, s.head? = some c → goIsSpace c = false)
    (hl : ∀ c, s.getLast? = some c → goIsSpace c = false) : trimSpace s = s := by
  cases s with
  | nil => rfl
  | cons a as =>
    have ha : goIsSpace a = false := hh a rfl
    rw [trimSpace, List.dropWhile_cons, if_neg (by simp [ha]), trimRightWhile]
    cases hr : (a :: as).reverse with
    | nil => simp at hr
    | cons b bs =>
      have hb : (a :: as).getLast? = some b := by
        rw [← List.head?_reverse, hr]
        rfl
      rw [List.dropWhile_cons, if_neg (by simp [hl b hb]), ← hr, List.reverse_reverse]

theorem trimSpace_idem (s : Str) : trimSpace (trimSpace s) = trimSpace s :=
  trimSpace_eq_self (trimSpace s) (trimSpace_head_nonspace s) (trimSpace_getLast_nonspace s)

/-! ### C1 support: lines of trimmed and appended strings -/

theorem splitNL_chars_subset (s : Str) : ∀ l ∈ splitNL s, ∀ c ∈ l, c ∈ s := by
  induction s with
  | nil =>
    intro l hl c hc
    simp [splitNL] at hl
    subst hl
    simp at hc
  | cons a r ih =>
    intro l hl c hc
    by_cases ha : a = '\n'
    · subst ha
      simp only [splitNL, if_pos rfl] at hl
      rcases List.mem_cons.mp hl with h1 | h1
      · subst h1; simp at hc
      · exact List.mem_cons_of_mem _ (ih l h1 c hc)
    · simp only [splitNL, if_neg ha] at hl
      cases hsp : splitNL r with
      | nil => exact absurd hsp (splitNL_ne_nil r)
      | cons z zs =>
        rw [hsp] at hl
        rcases List.mem_cons.mp hl with h1 | h1
        · subst h1
          rcases List.mem_cons.mp hc with h2 | h2
          · subst h2; exact List.mem_cons_self _ _
          · exact List.mem_cons_of_mem _ (ih z (hsp ▸ List.mem_cons_self z zs) c h2)
        · exact List.mem_cons_of_mem _ (ih l (hsp ▸ List.mem_cons_of_mem z h1) c hc)

/-- Extend the last line of a line list by a tail and append further
lines (the effect of appending text to the string the lines split from). -/
def expandLast (w0 : Str) (ws : List Str) : List Str → List Str
  | [] => ws
  | [x] => (x ++ w0) :: ws
  | x :: y :: ys => x :: expandLast w0 ws (y :: ys)

theorem splitNL_append_space (W : Str) (hW : ∀ c ∈ W, goIsSpace c = true) (A : Str) :
    ∃ w0 ws, (∀ c ∈ w0, goIsSpace c = true) ∧ (∀ l ∈ ws, ∀ c ∈ l, goIsSpace c = true) ∧
      splitNL (A ++ W) = expandLast w0 ws (splitNL A) := by
  induction A with
  | nil =>
    cases hsp : splitNL W with
    | nil => exact absurd hsp (splitNL_ne_nil W)
    | cons h t =>
      refine ⟨h, t, ?_, ?_, ?_⟩
      · intro c hc
        exact hW c (splitNL_chars_subset W h (hsp ▸ List.mem_cons_self h t) c hc)
      · intro l hl c hc
        exact hW c (splitNL_chars_subset W l (hsp ▸ List.mem_cons_of_mem h hl) c hc)
      · show splitNL W = expandLast h t (splitNL [])
        rw [hsp]
        rfl
  | cons a r ih =>
    obtain ⟨w0, ws, h1, h2, h3⟩ := ih
    by_cases ha : a = '\n'
    · subst ha
      refine ⟨w0, ws, h1, h2, ?_⟩
      show splitNL ('\n' :: (r ++ W)) = _
      simp only [splitNL, if_pos rfl]
      rw [h3]
      cases hsp : splitNL r with
      | nil => exact absurd hsp (splitNL_ne_nil r)
      | cons z zs => rfl
    · refine ⟨w0, ws, h1, h2, ?_⟩
      show splitNL (a :: (r ++ W)) = _
      simp only [splitNL, if_neg ha]
      rw [h3]
      cases hsp : splitNL r with
      | nil => exact absurd hsp (splitNL_ne_nil r)
      | cons z zs =>
        cases zs with
        | nil =>
          show ((a :: (z ++ w0)) :: ws) = _
          rfl
        | cons z2 zs2 => rfl

theorem mem_expandLast (w0 : Str) (ws : List Str) : ∀ (l : List Str), ∀ x ∈ l,
    x ∈ expandLast w0 ws l ∨ (x ++ w0) ∈ expandLast w0 ws l := by
  intro l
  induction l with
  | nil => intro x hx; simp at hx
  | cons z zs ih =>
    intro x hx
    cases zs with
    | nil =>
      rcases List.mem_cons.mp hx with h1 | h1
      · subst h1
        exact Or.inr (List.mem_cons_self _ _)
      · simp at h1
    | cons z2 zs2 =>
      rcases List.mem_cons.mp hx with h1 | h1
      · subst h1
        exact Or.inl (List.mem_cons_self _ _)
      · rcases ih x h1 with h2 | h2
        · exact Or.inl (List.mem_cons_of_mem _ h2)
        · exact Or.inr (List.mem_cons_of_mem _ h2)

theorem lines_trimRight (S : Str) :
    ∀ x ∈ splitNL (trimRightWhile goIsSpace S), ∃ y ∈ splitNL S, trimSpace x = trimSpace y := by
  obtain ⟨w, hw, hall⟩ := trimRight_decomp goIsSpace S
  obtain ⟨w0, ws, h1, h2, h3⟩ := splitNL_append_space w hall (trimRightWhile goIsSpace S)
  intro x hx
  have hS : splitNL S = expandLast w0 ws (splitNL (trimRightWhile goIsSpace S)) := by
    conv_lhs => rw [hw]
    exact h3
  rcases mem_expandLast w0 ws (splitNL (trimRightWhile goIsSpace S)) x hx with h4 | h4
  · exact ⟨x, hS ▸ h4, rfl⟩
  · exact ⟨x ++ w0, hS ▸ h4, (trimSpace_append_all x w0 h1).symm⟩

theorem lines_dropWhileL (S : Str) :
    ∀ x ∈ splitNL (S.dropWhile goIsSpace), ∃ y ∈ splitNL S, trimSpace x = trimSpace y := by
  induction S with
  | nil => intro x hx; exact ⟨x, hx, rfl⟩
  | cons a r ih =>
    by_cases ha : goIsSpace a
    · rw [List.dropWhile_cons, if_pos ha]
      intro x hx
      obtain ⟨y, hy, he⟩ := ih x hx
      by_cases han : a = '\n'
      · subst han
        refine ⟨y, ?_, he⟩
        simp only [splitNL, if_pos rfl]
        exact List.mem_cons_of_mem _ hy
      · cases hsp : splitNL r with
        | nil => exact absurd hsp (splitNL_ne_nil r)
        | cons z zs =>
          rw [hsp] at hy
          rcases List.mem_cons.mp hy with h1 | h1
          · subst h1
            refine ⟨a :: y, ?_, he.trans (trimSpace_cons_space a ha y).symm⟩
            simp only [splitNL, if_neg han, hsp]
            exact List.mem_cons_self _ _
          · refine ⟨y, ?_, he⟩
            simp only [splitNL, if_neg han, hsp]
            exact List.mem_cons_of_mem _ h1
    · rw [List.dropWhile_cons, if_neg ha]
      intro x hx
      exact ⟨x, hx, rfl⟩

theorem lines_trimSpace (S : Str) :
    ∀ x ∈ splitNL (trimSpace S), ∃ y ∈ splitNL S, trimSpace x = trimSpace y := by
  intro x hx
  obtain ⟨y1, hy1, he1⟩ := lines_trimRight (S.dropWhile goIsSpace) x hx
  obtain ⟨y2, hy2, he2⟩ := lines_dropWhileL S y1 hy1
  exact ⟨y2, hy2, he1.trans he2⟩

/-! ### C1 support: joined line blocks -/

/-- Join lines, one trailing newline per line. -/
def joinNL : List Str → Str
  | [] => []
  | l :: ls => l ++ '\n' :: joinNL ls

/-- One rendered item line. -/
def itemLine (it : CriterionItem) : Str :=
  strL "- " ++ it.description ++ strL "  (0-" ++ formatScore it.maxScore ++ strL " marks)"

/-- One rendered bullet line. -/
def bulletLine (b : Str) : Str := strL "• " ++ b

/-- The rendered criterion header line. -/
def headerLine (oc : Nat × Criterion) : Str :=
  strL "CRITERIA " ++ natToDec oc.1 ++ strL ": " ++ oc.2.title ++ strL " (0-" ++
    formatScore oc.2.maxScore ++ strL " marks)"

theorem joinNL_append (a b : List Str) : joinNL (a ++ b) = joinNL a ++ joinNL b := by
  induction a with
  | nil => rfl
  | cons l ls ih => simp [joinNL, ih]

theorem joinNL_splitNL (s : Str) : joinNL (splitNL s) = s ++ ['\n'] := by
  induction s with
  | nil => rfl
  | cons c r ih =>
    by_cases hc : c = '\n'
    · subst hc
      simp only [splitNL, if_pos rfl, joinNL]
      rw [ih]
      rfl
    · simp only [splitNL, if_neg hc]
      cases hsp : splitNL r with
      | nil => exact absurd hsp (splitNL_ne_nil r)
      | cons z zs =>
        show (c :: z) ++ '\n' :: joinNL zs = (c :: r) ++ ['\n']
        have h2 : joinNL (z :: zs) = r ++ ['\n'] := by rw [← hsp]; exact ih
        simp only [joinNL] at h2
        simp [h2]

theorem splitNL_joinNL_append (ls : List Str) (h : ∀ l ∈ ls, '\n' ∉ l) (rest : Str) :
    splitNL (joinNL ls ++ rest) = ls ++ splitNL rest := by
  induction ls with
  | nil => rfl
  | cons l ls2 ih =>
    show splitNL ((l ++ '\n' :: joinNL ls2) ++ rest) = _
    rw [List.append_assoc]
    rw [show ('\n' :: joinNL ls2) ++ rest = '\n' :: (joinNL ls2 ++ rest) from rfl]
    rw [splitNL_append l (joinNL ls2 ++ rest)]
    rw [splitNL_no_newline l (h l (List.mem_cons_self l ls2))]
    rw [ih (fun x hx => h x (List.mem_cons_of_mem _ hx))]
    rfl

theorem items_fold_eq (its : List CriterionItem) : ∀ acc : Str,
    its.foldl (fun acc it => acc ++ strL "- " ++ it.description ++ strL "  (0-" ++
      formatScore it.maxScore ++ strL " marks)" ++ ['\n']) acc =
    acc ++ joinNL (its.map itemLine) := by
  induction its with
  | nil => intro acc; simp [joinNL]
  | cons it its ih =>
    intro acc
    rw [List.foldl_cons, ih]
    simp [joinNL, itemLine, List.append_assoc]

theorem bullets_fold_eq (bs : List Str) (hbs : ∀ b ∈ bs, b ≠ []) : ∀ acc : Str,
    bs.foldl (fun acc qb => acc ++ (if qb ≠ [] then strL "• " ++ qb ++ ['\n'] else [])) acc =
    acc ++ joinNL (bs.map bulletLine) := by
  induction bs with
  | nil => intro acc; simp [joinNL]
  | cons b bs ih =>
    intro acc
    rw [List.foldl_cons, if_pos (hbs b (List.mem_cons_self b bs)),
      ih (fun x hx => hbs x (List.mem_cons_of_mem _ hx))]
    simp [joinNL, bulletLine, List.append_assoc]

theorem render_prompt_eq (I qt A : Str) (bl : List Str) (oc : Nat × Criterion)
    (hbl : ∀ b ∈ bl, b ≠ []) :
    (renderTemplate I qt bl A oc).prompt =
      joinNL ([mINSTR] ++ splitNL (trimSpace I) ++ [mCRIT, headerLine oc] ++
        (oc.2.items.map itemLine) ++ [mQUEST] ++ (if qt ≠ [] then [qt] else []) ++
        (bl.map bulletLine) ++ [mANS]) ++ (if A ≠ [] then A else []) := by
  show (mINSTR ++ ['\n'] ++ trimSpace I ++ ['\n'] ++ mCRIT ++ ['\n'] ++
      (strL "CRITERIA " ++ natToDec oc.1 ++ strL ": " ++ oc.2.title ++
        strL " (0-" ++ formatScore oc.2.maxScore ++ strL " marks)") ++ ['\n'] ++
      (oc.2.items.foldl (fun acc it => acc ++ strL "- " ++ it.description ++ strL "  (0-" ++
        formatScore it.maxScore ++ strL " marks)" ++ ['\n']) []) ++ mQUEST ++ ['\n'] ++
      (if qt ≠ [] then qt ++ ['\n'] else []) ++
      (bl.foldl (fun acc qb => acc ++ (if qb ≠ [] then strL "• " ++ qb ++ ['\n'] else [])) []) ++
      mANS ++ ['\n'] ++ (if A ≠ [] then A else [])) = _
  rw [items_fold_eq, bullets_fold_eq bl hbl]
  by_cases hq : qt = []
  · by_cases hA : A = []
    · simp [hq, hA, joinNL_append, joinNL, joinNL_splitNL, headerLine, List.append_assoc]
    · simp [hq, hA, joinNL_append, joinNL, joinNL_splitNL, headerLine, List.append_assoc]
  · by_cases hA : A = []
    · simp [hq, hA, joinNL_append, joinNL, joinNL_splitNL, headerLine, List.append_assoc]
    · simp [hq, hA, joinNL_append, joinNL, joinNL_splitNL, headerLine, List.append_assoc]

/-! ### C1 support: secLines traversal -/

theorem secLines_cons_marker (target sec : Sec) (l : Str) (s2 : Sec) (ls : List Str)
    (h : markerSec (trimSpace l) = some s2) :
    secLines target sec (l :: ls) = secLines target s2 ls := by
  simp only [secLines]
  rw [trimSpace_CR l, h]

theorem secLines_cons_skip (target sec : Sec) (l : Str) (ls : List Str)
    (h : markerSec (trimSpace l) = none) (hne : sec ≠ target) :
    secLines target sec (l :: ls) = secLines target sec ls := by
  simp only [secLines]
  rw [trimSpace_CR l, h]
  simp [hne]

theorem secLines_cons_same (target : Sec) (l : Str) (ls : List Str)
    (h : markerSec (trimSpace l) = none) :
    secLines target target (l :: ls) =
      trimRightWhile (fun c => c = '\r') l :: secLines target target ls := by
  simp only [secLines]
  rw [trimSpace_CR l, h]
  simp

theorem secLines_append_skip (target sec : Sec) (ls1 ls2 : List Str)
    (h : ∀ l ∈ ls1, markerSec (trimSpace l) = none) (hne : sec ≠ target) :
    secLines target sec (ls1 ++ ls2) = secLines target sec ls2 := by
  induction ls1 with
  | nil => rfl
  | cons a as ih =>
    rw [List.cons_append, secLines_cons_skip target sec a _ (h a (List.mem_cons_self a as)) hne]
    exact ih (fun x hx => h x (List.mem_cons_of_mem _ hx))

theorem secLines_append_same (target : Sec) (ls1 ls2 : List Str)
    (h : ∀ l ∈ ls1, markerSec (trimSpace l) = none) :
    secLines target target (ls1 ++ ls2) =
      ls1.map (trimRightWhile (fun c => c = '\r')) ++ secLines target target ls2 := by
  induction ls1 with
  | nil => rfl
  | cons a as ih =>
    rw [List.cons_append, secLines_cons_same target a _ (h a (List.mem_cons_self a as))]
    rw [ih (fun x hx => h x (List.mem_cons_of_mem _ hx))]
    rfl

theorem secLines_no_marker (target : Sec) : ∀ (sec : Sec) (ls : List Str),
    ∀ l ∈ secLines target sec ls, markerSec (trimSpace l) = none := by
  intro sec ls
  induction ls generalizing sec with
  | nil => simp [secLines]
  | cons a as ih =>
    intro l hl
    simp only [secLines] at hl
    cases hm : markerSec (trimSpace (trimRightWhile (fun c => c = '\r') a)) with
    | some s2 =>
      rw [hm] at hl
      exact ih s2 l hl
    | none =>
      rw [hm] at hl
      by_cases ht : sec = target
      · rw [if_pos ht] at hl
        rcases List.mem_cons.mp hl with h1 | h1
        · subst h1
          rw [trimSpace_CR a]
          rw [trimSpace_CR a] at hm
          exact hm
        · exact ih sec l h1
      · rw [if_neg ht] at hl
        exact ih sec l hl

theorem secLines_no_newline (target : Sec) : ∀ (sec : Sec) (ls : List Str),
    (∀ l ∈ ls, '\n' ∉ l) → ∀ l ∈ secLines target sec ls, '\n' ∉ l := by
  intro sec ls
  induction ls generalizing sec with
  | nil => simp [secLines]
  | cons a as ih =>
    intro hls l hl
    simp only [secLines] at hl
    cases hm : markerSec (trimSpace (trimRightWhile (fun c => c = '\r') a)) with
    | some s2 =>
      rw [hm] at hl
      exact ih s2 (fun x hx => hls x (List.mem_cons_of_mem _ hx)) l hl
    | none =>
      rw [hm] at hl
      by_cases ht : sec = target
      · rw [if_pos ht] at hl
        rcases List.mem_cons.mp hl with h1 | h1
        · subst h1
          intro hc
          exact hls a (List.mem_cons_self a as)
            (trimRightWhile_subset (fun c => c = '\r') a '\n' hc)
        · exact ih sec (fun x hx => hls x (List.mem_cons_of_mem _ hx)) l h1
      · rw [if_neg ht] at hl
        exact ih sec (fun x hx => hls x (List.mem_cons_of_mem _ hx)) l hl

theorem rawSecLines_no_marker (raw : Str) (target : Sec) :
    ∀ l ∈ rawSecLines raw target, markerSec (trimSpace l) = none :=
  secLines_no_marker target Sec.start (splitNL raw)

theorem rawSecLines_no_newline (raw : Str) (target : Sec) :
    ∀ l ∈ rawSecLines raw target, '\n' ∉ l :=
  secLines_no_newline target Sec.start (splitNL raw) (mem_splitNL_no_newline raw)

/-! ### C1 support: the rendered score and header strings -/

theorem digitChar_facts (k : Nat) (h : k < 10) :
    goIsSpace (digitChar k) = false ∧ (digitChar k).isDigit = true ∧
    digitChar k ≠ '.' ∧ digitChar k ≠ '\n' ∧ digitChar k ≠ '(' := by
  interval_cases k <;> exact ⟨by decide, by decide, by decide, by decide, by decide⟩

theorem natToDec_chars (n : Nat) : ∀ c ∈ natToDec n, ∃ k, k < 10 ∧ c = digitChar k := by
  induction n using Nat.strong_induction_on with
  | _ n ih =>
    rw [natToDec_eq]
    by_cases h10 : n < 10
    · simp only [if_pos h10]
      intro c hc
      rcases List.mem_singleton.mp hc with h
      exact ⟨n, h10, h⟩
    · have hd : n / 10 < n := Nat.div_lt_self (by omega) (by omega)
      simp only [if_neg h10]
      intro c hc
      rcases List.mem_append.mp hc with h | h
      · exact ih (n / 10) hd c h
      · rcases List.mem_singleton.mp h with h
        exact ⟨n % 10, Nat.mod_lt n (by omega), h⟩

/-- Part of the string is composed of decimal digit characters. -/
def digitsOnly (a : Str) : Prop := ∀ c ∈ a, ∃ k, k < 10 ∧ c = digitChar k

theorem digitsOnly_isDigit (a : Str) (h : digitsOnly a) : ∀ c ∈ a, c.isDigit = true := by
  intro c hc
  obtain ⟨k, hk, he⟩ := h c hc
  exact he ▸ (digitChar_facts k hk).2.1

theorem digitsOnly_not_space (a : Str) (h : digitsOnly a) : ∀ c ∈ a, goIsSpace c = false := by
  intro c hc
  obtain ⟨k, hk, he⟩ := h c hc
  exact he ▸ (digitChar_facts k hk).1

theorem digitsOnly_natToDec (n : Nat) : digitsOnly (natToDec n) := natToDec_chars n

theorem takeWhile_all_append (p : Char → Bool) (a : Str) (ha : ∀ c ∈ a, p c = true) (b : Str) :
    (a ++ b).takeWhile p = a ++ b.takeWhile p := by
  induction a with
  | nil => rfl
  | cons c a2 ih =>
    rw [List.cons_append, List.takeWhile_cons, if_pos (ha c (List.mem_cons_self c a2))]
    rw [ih (fun x hx => ha x (List.mem_cons_of_mem _ hx))]
    rfl

theorem dropWhile_all_append (p : Char → Bool) (a : Str) (ha : ∀ c ∈ a, p c = true) (b : Str) :
    (a ++ b).dropWhile p = b.dropWhile p := by
  induction a with
  | nil => rfl
  | cons c a2 ih =>
    rw [List.cons_append, List.dropWhile_cons, if_pos (ha c (List.mem_cons_self c a2))]
    exact ih (fun x hx => ha x (List.mem_cons_of_mem _ hx))

theorem takeWhile_stop (p : Char → Bool) (a : Str) (ha : ∀ x ∈ a, p x = true)
    (c : Char) (hc : p c = false) (r : Str) :
    (a ++ c :: r).takeWhile p = a := by
  rw [takeWhile_all_append p a ha, List.takeWhile_cons, if_neg (by simp [hc])]
  simp

theorem dropWhile_stop (p : Char → Bool) (a : Str) (ha : ∀ x ∈ a, p x = true)
    (c : Char) (hc : p c = false) (r : Str) :
    (a ++ c :: r).dropWhile p = c :: r := by
  rw [dropWhile_all_append p a ha, List.dropWhile_cons, if_neg (by simp [hc])]

theorem takeWhile_all (p : Char → Bool) (a : Str) (ha : ∀ x ∈ a, p x = true) :
    a.takeWhile p = a := by
  have h := takeWhile_all_append p a ha []
  simpa using h

/-- The shape of every string formatScore produces: bare digits, or digits
point digits. -/
def fsShape (fs : Str) : Prop :=
  (fs ≠ [] ∧ digitsOnly fs) ∨
  ∃ a b, fs = a ++ '.' :: b ∧ a ≠ [] ∧ b ≠ [] ∧ digitsOnly a ∧ digitsOnly b

theorem formatScore_fsShape (f : Score) : fsShape (formatScore f) := by
  by_cases h : f.exp10 = 0
  · left
    rw [show formatScore f = natToDec f.num from by simp [formatScore, h]]
    exact ⟨natToDec_ne_nil f.num, digitsOnly_natToDec f.num⟩
  · rw [formatScore_shape f h]
    by_cases h100 : times100round f % 100 = 0
    · rw [if_pos h100]
      exact Or.inl ⟨natToDec_ne_nil _, digitsOnly_natToDec _⟩
    · by_cases h10 : times100round f % 10 = 0
      · rw [if_neg h100, if_pos h10]
        refine Or.inr ⟨natToDec _, [digitChar (times100round f % 100 / 10)], rfl,
          natToDec_ne_nil _, by simp, digitsOnly_natToDec _, ?_⟩
        intro c hc
        rcases List.mem_singleton.mp hc with h
        exact ⟨times100round f % 100 / 10, by omega, h⟩
      · rw [if_neg h100, if_neg h10]
        refine Or.inr ⟨natToDec _, [digitChar (times100round f % 100 / 10),
          digitChar (times100round f % 10)], rfl, natToDec_ne_nil _, by simp,
          digitsOnly_natToDec _, ?_⟩
        intro c hc
        rcases List.mem_cons.mp hc with h1 | h1
        · exact ⟨times100round f % 100 / 10, by omega, h1⟩
        · rcases List.mem_singleton.mp h1 with h2
          exact ⟨times100round f % 10, by omega, h2⟩

theorem fsShape_ne_nil (fs : Str) (h : fsShape fs) : fs ≠ [] := by
  rcases h with ⟨h1, _⟩ | ⟨a, b, he, ha, _, _, _⟩
  · exact h1
  · subst he
    intro hc
    cases a <;> simp at hc

theorem fsShape_chars (fs : Str) (h : fsShape fs) :
    ∀ c ∈ fs, c = '.' ∨ ∃ k, k < 10 ∧ c = digitChar k := by
  rcases h with ⟨_, h2⟩ | ⟨a, b, he, _, _, hda, hdb⟩
  · intro c hc
    exact Or.inr (h2 c hc)
  · subst he
    intro c hc
    rcases List.mem_append.mp hc with h1 | h1
    · exact Or.inr (hda c h1)
    · rcases List.mem_cons.mp h1 with h2 | h2
      · exact Or.inl h2
      · exact Or.inr (hdb c h2)

theorem fsShape_no_newline (fs : Str) (h : fsShape fs) : '\n' ∉ fs := by
  intro hc
  rcases fsShape_chars fs h '\n' hc with h1 | ⟨k, hk, h1⟩
  · cases h1
  · exact (digitChar_facts k hk).2.2.2.1 h1.symm

theorem parseNum_shaped (fs : Str) (hfs : fsShape fs) (c0 : Char) (r0 : Str)
    (hc0 : c0.isDigit = false) (hc0' : c0 ≠ '.') :
    parseNum (fs ++ c0 :: r0) = some (fs, c0 :: r0) := by
  rcases hfs with ⟨hne, hdig⟩ | ⟨a, b, he, ha, hb, hda, hdb⟩
  · simp only [parseNum,
      takeWhile_stop (fun c => c.isDigit) fs (digitsOnly_isDigit fs hdig) c0 hc0 r0,
      dropWhile_stop (fun c => c.isDigit) fs (digitsOnly_isDigit fs hdig) c0 hc0 r0]
    rw [if_neg hne, if_neg (show ¬((c0 :: r0).head? = some '.') by simp [hc0'])]
  · subst he
    rw [List.append_assoc, List.cons_append]
    simp only [parseNum,
      takeWhile_stop (fun c => c.isDigit) a (digitsOnly_isDigit a hda) '.' (by decide)
        (b ++ c0 :: r0),
      dropWhile_stop (fun c => c.isDigit) a (digitsOnly_isDigit a hda) '.' (by decide)
        (b ++ c0 :: r0)]
    rw [if_neg ha, if_pos (show ('.' :: (b ++ c0 :: r0)).head? = some '.' from rfl)]
    simp only [List.tail_cons,
      takeWhile_stop (fun c => c.isDigit) b (digitsOnly_isDigit b hdb) c0 hc0 r0,
      dropWhile_stop (fun c => c.isDigit) b (digitsOnly_isDigit b hdb) c0 hc0 r0]
    rw [if_neg hb]

/-! ### C1 support: inverting the matchers -/

theorem isPrefixOf_self_append (l t : Str) : l.isPrefixOf (l ++ t) = true := by
  induction l with
  | nil => cases t <;> rfl
  | cons c cs ih => simp [List.isPrefixOf, ih]

theorem isPrefixOf_decomp (l : Str) : ∀ t : Str, l.isPrefixOf t = true → ∃ u, t = l ++ u := by
  induction l with
  | nil => exact fun t _ => ⟨t, rfl⟩
  | cons c cs ih =>
    intro t h
    cases t with
    | nil => simp [List.isPrefixOf] at h
    | cons d ds =>
      simp only [List.isPrefixOf, Bool.and_eq_true, beq_iff_eq] at h
      obtain ⟨hcd, h2⟩ := h
      obtain ⟨u, hu⟩ := ih ds h2
      subst hcd
      exact ⟨u, by rw [hu]; rfl⟩

theorem parseNum_some_decomp (l a r : Str) (h : parseNum l = some (a, r)) :
    l = a ++ r ∧ ∀ c ∈ a, c.isDigit = true ∨ c = '.' := by
  have hsplit := (List.takeWhile_append_dropWhile (fun c => c.isDigit) l).symm
  simp only [parseNum] at h
  by_cases h1 : l.takeWhile (fun c => c.isDigit) = []
  · rw [if_pos h1] at h; cases h
  · rw [if_neg h1] at h
    by_cases h2 : (l.dropWhile (fun c => c.isDigit)).head? = some '.'
    · rw [if_pos h2] at h
      cases hdw : l.dropWhile (fun c => c.isDigit) with
      | nil => rw [hdw] at h2; cases h2
      | cons d dtl =>
        rw [hdw] at h2
        have hd : d = '.' := by simpa using h2
        subst hd
        rw [hdw] at h hsplit
        simp only [List.tail_cons] at h
        by_cases h3 : dtl.takeWhile (fun c => c.isDigit) = []
        · rw [if_pos h3] at h
          injection h with h'
          injection h' with ha hr
          subst ha; subst hr
          exact ⟨hsplit, fun c hc => Or.inl (List.mem_takeWhile_imp hc)⟩
        · rw [if_neg h3] at h
          injection h with h'
          injection h' with ha hr
          subst ha; subst hr
          have hdtl := List.takeWhile_append_dropWhile (fun c => c.isDigit) dtl
          constructor
          · conv_lhs => rw [hsplit]
            conv_rhs => rw [List.append_assoc, List.cons_append, hdtl]
          · intro c hc
            rcases List.mem_append.mp hc with h4 | h4
            · exact Or.inl (List.mem_takeWhile_imp h4)
            · rcases List.mem_cons.mp h4 with h5 | h5
              · exact Or.inr h5
              · exact Or.inl (List.mem_takeWhile_imp h5)
    · rw [if_neg h2] at h
      injection h with h'
      injection h' with ha hr
      subst ha; subst hr
      exact ⟨hsplit, fun c hc => Or.inl (List.mem_takeWhile_imp hc)⟩

theorem marktail_chars (u : Str)
    (h4 : (if u.head? = some 's' then u.drop 1 else u).head? = some ')')
    (h5 : ((if u.head? = some 's' then u.drop 1 else u).drop 1).dropWhile goIsSpace = []) :
    ∀ c ∈ u, c = 's' ∨ c = ')' ∨ goIsSpace c = true := by
  by_cases h3 : u.head? = some 's'
  · rw [if_pos h3] at h4 h5
    cases u with
    | nil => exact absurd h3 (by decide)
    | cons a u2 =>
      have ha : a = 's' := by simpa using h3
      subst ha
      simp only [List.drop_succ_cons, List.drop_zero] at h4 h5
      cases u2 with
      | nil => exact absurd h4 (by decide)
      | cons b u3 =>
        have hb : b = ')' := by simpa using h4
        subst hb
        simp only [List.drop_succ_cons, List.drop_zero] at h5
        have hsp := List.dropWhile_eq_nil_iff.mp h5
        intro c hc
        rcases List.mem_cons.mp hc with h6 | h6
        · exact Or.inl h6
        · rcases List.mem_cons.mp h6 with h7 | h7
          · exact Or.inr (Or.inl h7)
          · exact Or.inr (Or.inr (hsp c h7))
  · rw [if_neg h3] at h4 h5
    cases u with
    | nil => exact absurd h4 (by decide)
    | cons b u3 =>
      have hb : b = ')' := by simpa using h4
      subst hb
      simp only [List.drop_succ_cons, List.drop_zero] at h5
      have hsp := List.dropWhile_eq_nil_iff.mp h5
      intro c hc
      rcases List.mem_cons.mp hc with h6 | h6
      · exact Or.inr (Or.inl h6)
      · exact Or.inr (Or.inr (hsp c h6))

theorem coreEnd_some_no_paren (l n : Str) (h : coreEnd l = some n) : '(' ∉ l := by
  simp only [coreEnd] at h
  cases hp : parseNum l with
  | none => rw [hp] at h; cases h
  | some p =>
    obtain ⟨numS, r⟩ := p
    rw [hp] at h
    obtain ⟨hl, hchars⟩ := parseNum_some_decomp l numS r hp
    dsimp only at h
    by_cases h1 : r.takeWhile goIsSpace = []
    · rw [if_pos h1] at h; cases h
    · rw [if_neg h1] at h
      by_cases h2 : (strL "mark").isPrefixOf (r.dropWhile goIsSpace) = true
      · rw [if_pos h2] at h
        obtain ⟨u, hu⟩ := isPrefixOf_decomp _ _ h2
        have hdrop : (r.dropWhile goIsSpace).drop 4 = u := by rw [hu]; rfl
        rw [hdrop] at h
        by_cases h4 : (if u.head? = some 's' then u.drop 1 else u).head? = some ')'
        · rw [if_pos h4] at h
          by_cases h5 :
              ((if u.head? = some 's' then u.drop 1 else u).drop 1).dropWhile goIsSpace = []
          · have hub := marktail_chars u h4 h5
            intro hpl
            rw [hl] at hpl
            rcases List.mem_append.mp hpl with hc | hc
            · rcases hchars '(' hc with hd | hd
              · exact absurd hd (by decide)
              · exact absurd hd (by decide)
            · have hr : r = r.takeWhile goIsSpace ++ r.dropWhile goIsSpace :=
                (List.takeWhile_append_dropWhile _ _).symm
              rw [hr] at hc
              rcases List.mem_append.mp hc with hc2 | hc2
              · exact absurd (List.mem_takeWhile_imp hc2) (by decide)
              · rw [hu] at hc2
                rcases List.mem_append.mp hc2 with hc3 | hc3
                · revert hc3; decide
                · rcases hub '(' hc3 with h6 | h6 | h6
                  · exact absurd h6 (by decide)
                  · exact absurd h6 (by decide)
                  · exact absurd h6 (by decide)
          · rw [if_neg h5] at h; cases h
        · rw [if_neg h4] at h; cases h
      · rw [if_neg h2] at h; cases h

theorem parenAll_some_no_paren (l n : Str) (h : parenAll l = some n) : '(' ∉ l := by
  simp only [parenAll] at h
  by_cases h0 : l.take 2 = strL "0-"
  · rw [if_pos h0] at h
    cases hce : coreEnd (l.drop 2) with
    | some m =>
      intro hc
      have h2 : '(' ∉ l.drop 2 := coreEnd_some_no_paren _ m hce
      have hl : l = l.take 2 ++ l.drop 2 := (List.take_append_drop 2 l).symm
      rw [hl] at hc
      rcases List.mem_append.mp hc with h3 | h3
      · rw [h0] at h3; revert h3; decide
      · exact h2 h3
    | none =>
      rw [hce] at h
      exact coreEnd_some_no_paren l n h
  · rw [if_neg h0] at h
    exact coreEnd_some_no_paren l n h

theorem parenAll_none_of_paren (l : Str) (hp : '(' ∈ l) : parenAll l = none := by
  cases hq : parenAll l with
  | none => rfl
  | some n => exact absurd hp (parenAll_some_no_paren l n hq)

theorem checkHere_cons_space (c : Char) (v : Str) (hc : goIsSpace c = true) :
    checkHere (c :: v) = checkHere v := by
  simp only [checkHere, List.dropWhile_cons, hc, if_true]

theorem dropWhile_append_ne_nil (p : Char → Bool) (s T : Str) (h : ∃ c ∈ s, p c = false) :
    (s ++ T).dropWhile p = s.dropWhile p ++ T ∧ s.dropWhile p ≠ [] := by
  induction s with
  | nil =>
    obtain ⟨c, hc, _⟩ := h
    simp at hc
  | cons a as ih =>
    by_cases hpa : p a = true
    · have h2 : ∃ c ∈ as, p c = false := by
        obtain ⟨c, hc, hcp⟩ := h
        rcases List.mem_cons.mp hc with h1 | h1
        · subst h1; rw [hpa] at hcp; cases hcp
        · exact ⟨c, h1, hcp⟩
      obtain ⟨h3, h4⟩ := ih h2
      constructor
      · rw [List.cons_append, List.dropWhile_cons, if_pos hpa, List.dropWhile_cons,
          if_pos hpa, h3]
      · rw [List.dropWhile_cons, if_pos hpa]
        exact h4
    · constructor
      · rw [List.cons_append, List.dropWhile_cons, if_neg hpa, List.dropWhile_cons,
          if_neg hpa, List.cons_append]
      · rw [List.dropWhile_cons, if_neg hpa]
        simp

theorem checkHere_inside (s T : Str) (h : ∃ c ∈ s, goIsSpace c = false) (hp : '(' ∈ T) :
    checkHere (s ++ T) = none := by
  obtain ⟨heq, hne⟩ := dropWhile_append_ne_nil goIsSpace s T h
  simp only [checkHere]
  rw [heq]
  cases hd : s.dropWhile goIsSpace with
  | nil => exact absurd hd hne
  | cons d d2 =>
    by_cases hdp : d = '('
    · subst hdp
      rw [if_pos (show (('(' :: d2 : Str) ++ T).head? = some '(' from rfl)]
      exact parenAll_none_of_paren _ (List.mem_append_right _ hp)
    · rw [if_neg (show ¬(((d :: d2 : Str) ++ T).head? = some '(') from by
        simp [hdp])]

theorem coreEnd_shaped (fs : Str) (hfs : fsShape fs) :
    coreEnd (fs ++ strL " marks)") = some fs := by
  have he : fs ++ strL " marks)" = fs ++ ' ' :: strL "marks)" := rfl
  rw [he]
  have hp := parseNum_shaped fs hfs ' ' (strL "marks)") (by decide) (by decide)
  simp only [coreEnd]
  rw [hp]
  dsimp only
  rw [show (' ' :: strL "marks)").takeWhile goIsSpace = [' '] from by decide,
      show (' ' :: strL "marks)").dropWhile goIsSpace = strL "marks)" from by decide]
  rw [if_neg (show ¬([' '] = ([] : Str)) from by decide),
      if_pos (show (strL "mark").isPrefixOf (strL "marks)") = true from by decide)]
  rw [show (strL "marks)").drop 4 = strL "s)" from by decide]
  rw [show (if (strL "s)").head? = some 's' then (strL "s)").drop 1 else strL "s)") =
    strL ")" from by decide]
  rw [if_pos (show (strL ")").head? = some ')' from by decide)]
  rw [if_pos (show ((strL ")").drop 1).dropWhile goIsSpace = [] from by decide)]

theorem checkHere_tail (fs : Str) (hfs : fsShape fs) :
    checkHere (' ' :: '(' :: '0' :: '-' :: (fs ++ strL " marks)")) = some fs := by
  simp only [checkHere]
  rw [List.dropWhile_cons, if_pos (show goIsSpace ' ' = true from by decide),
      List.dropWhile_cons, if_neg (show ¬(goIsSpace '(' = true) from by decide)]
  rw [if_pos (show (('(' :: '0' :: '-' :: (fs ++ strL " marks)") : Str)).head? = some '('
    from rfl)]
  dsimp only [List.tail_cons]
  simp only [parenAll]
  rw [if_pos (show (('0' :: '-' :: (fs ++ strL " marks)") : Str)).take 2 = strL "0-"
    from rfl)]
  rw [show (('0' :: '-' :: (fs ++ strL " marks)") : Str)).drop 2 = fs ++ strL " marks)"
    from rfl]
  rw [coreEnd_shaped fs hfs]

theorem lazySplit_nil (acc : Str) : lazySplit acc [] = none := rfl

theorem lazySplit_cons (acc : Str) (c : Char) (r2 : Str) : lazySplit acc (c :: r2) =
    match checkHere (c :: r2) with
    | some numS => some (acc.reverse, numS)
    | none => lazySplit (c :: acc) r2 := rfl

theorem lazySplit_here (acc r n : Str) (h : checkHere r = some n) :
    lazySplit acc r = some (acc.reverse, n) := by
  cases r with
  | nil => rw [show checkHere [] = none from by decide] at h; cases h
  | cons c r2 =>
    rw [lazySplit_cons, h]

theorem lazySplit_skip (acc : Str) (c : Char) (r2 : Str)
    (h : checkHere (c :: r2) = none) :
    lazySplit acc (c :: r2) = lazySplit (c :: acc) r2 := by
  rw [lazySplit_cons, h]

theorem lazySplit_decomp : ∀ (r acc ti n : Str), lazySplit acc r = some (ti, n) →
    ∃ u v, ti = acc.reverse ++ u ∧ r = u ++ v ∧ checkHere v = some n ∧
      ∀ p s, u = p ++ s → s ≠ [] → checkHere (s ++ v) = none := by
  intro r
  induction r with
  | nil =>
    intro acc ti n h
    rw [lazySplit_nil] at h
    cases h
  | cons c r2 ih =>
    intro acc ti n h
    cases hch : checkHere (c :: r2) with
    | some m =>
      rw [lazySplit_here acc (c :: r2) m hch] at h
      injection h with h'
      injection h' with hti hn
      subst hti; subst hn
      refine ⟨[], c :: r2, by simp, rfl, hch, ?_⟩
      intro p s hps hs
      rcases List.append_eq_nil.mp hps.symm with ⟨_, h2⟩
      exact absurd h2 hs
    | none =>
      rw [lazySplit_skip acc c r2 hch] at h
      obtain ⟨u2, v, hti, hr, hcv, hmin⟩ := ih (c :: acc) ti n h
      refine ⟨c :: u2, v, ?_, ?_, hcv, ?_⟩
      · rw [hti]
        simp
      · rw [hr]
        rfl
      · intro p s hps hs
        cases p with
        | nil =>
          have hsv : s = c :: u2 := by
            have h9 := hps
            simp only [List.nil_append] at h9
            exact h9.symm
          rw [hsv, List.cons_append, ← hr]
          exact hch
        | cons d p2 =>
          have hd : d = c ∧ u2 = p2 ++ s := by
            have := hps
            simp only [List.cons_append, List.cons.injEq] at this
            exact ⟨this.1.symm, this.2⟩
          exact hmin p2 s hd.2 hs

theorem lazySplit_prepend (T n : Str) (hT : checkHere T = some n) :
    ∀ (ti acc : Str), (∀ p s, ti = p ++ s → s ≠ [] → checkHere (s ++ T) = none) →
      lazySplit acc (ti ++ T) = some (acc.reverse ++ ti, n) := by
  intro ti
  induction ti with
  | nil =>
    intro acc _
    rw [List.nil_append, lazySplit_here acc T n hT]
    simp
  | cons c t2 ih =>
    intro acc hmin
    have hnone : checkHere ((c :: t2) ++ T) = none :=
      hmin [] (c :: t2) rfl (by simp)
    rw [List.cons_append] at hnone ⊢
    rw [lazySplit_skip acc c (t2 ++ T) hnone]
    have ih2 := ih (c :: acc) (fun p s hps hs => hmin (c :: p) s (by rw [hps]; rfl) hs)
    rw [ih2]
    simp

theorem getLast?_some_decomp (l : Str) (c : Char) (h : l.getLast? = some c) :
    ∃ w, l = w ++ [c] := by
  rw [← List.head?_reverse] at h
  cases hr : l.reverse with
  | nil => rw [hr] at h; cases h
  | cons d rs =>
    rw [hr] at h
    have hd : d = c := by simpa using h
    subst hd
    refine ⟨rs.reverse, ?_⟩
    have := congrArg List.reverse hr
    simpa using this

theorem getLast?_append_right (a b : Str) (hb : b ≠ []) :
    (a ++ b).getLast? = b.getLast? := by
  rw [← List.head?_reverse, ← List.head?_reverse, List.reverse_append]
  cases hbr : b.reverse with
  | nil => exact absurd (by simpa using congrArg List.reverse hbr) hb
  | cons c cs => rfl

theorem trimRightWhile_eq_self (p : Char → Bool) (l : Str)
    (h : ∀ c, l.getLast? = some c → p c = false) : trimRightWhile p l = l := by
  rw [trimRightWhile]
  cases hr : l.reverse with
  | nil =>
    have h2 : l = [] := by simpa using congrArg List.reverse hr
    subst h2
    rfl
  | cons c rs =>
    have hc : l.getLast? = some c := by rw [← List.head?_reverse, hr]; rfl
    rw [List.dropWhile_cons, if_neg (by simp [h c hc]), ← hr, List.reverse_reverse]

theorem markerSec_head (t : Str) (h : t.head? ≠ some '=') : markerSec t = none := by
  simp only [markerSec]
  split_ifs with h1 h2 h3 h4
  · exact absurd (by rw [h1]; rfl) h
  · exact absurd (by rw [h2]; rfl) h
  · exact absurd (by rw [h3]; rfl) h
  · exact absurd (by rw [h4]; rfl) h
  · rfl

theorem critMatch_head (t : Str) (h : t.head? ≠ some 'C') : critMatch t = none := by
  have hp : ¬((strL "CRITERIA").isPrefixOf t = true) := by
    intro hp
    obtain ⟨u, hu⟩ := isPrefixOf_decomp _ _ hp
    rw [hu] at h
    exact h rfl
  simp only [critMatch]
  rw [if_neg hp]

theorem critMatch_some_inv (t ds ti numS : Str) (h : critMatch t = some (ds, ti, numS)) :
    (∀ c ∈ ti, c ∈ t) ∧ (∀ c, ti.head? = some c → goIsSpace c = false) ∧
    (∀ c, ti.getLast? = some c → goIsSpace c = false) := by
  simp only [critMatch] at h
  by_cases h0 : (strL "CRITERIA").isPrefixOf t = true
  · rw [if_pos h0] at h
    by_cases h1 : (t.drop 8).takeWhile goIsSpace = []
    · rw [if_pos h1] at h; cases h
    · rw [if_neg h1] at h
      by_cases h2 : ((t.drop 8).dropWhile goIsSpace).takeWhile (fun c => c.isDigit) = []
      · rw [if_pos h2] at h; cases h
      · rw [if_neg h2] at h
        by_cases h3 :
            (((t.drop 8).dropWhile goIsSpace).dropWhile (fun c => c.isDigit)).head? = some ':'
        · rw [if_pos h3] at h
          by_cases h4 : ((((t.drop 8).dropWhile goIsSpace).dropWhile
              (fun c => c.isDigit)).tail).takeWhile goIsSpace = []
          · rw [if_pos h4] at h; cases h
          · rw [if_neg h4] at h
            cases hls : lazySplit [] ((((t.drop 8).dropWhile goIsSpace).dropWhile
                (fun c => c.isDigit)).tail.dropWhile goIsSpace) with
            | none => rw [hls] at h; cases h
            | some q =>
              obtain ⟨ti0, numS0⟩ := q
              rw [hls] at h
              injection h with h'
              injection h' with hds h''
              injection h'' with hti hnum
              subst hti
              obtain ⟨u, v, htiu, hr3, hcv, hmin⟩ := lazySplit_decomp _ _ _ _ hls
              simp only [List.reverse_nil, List.nil_append] at htiu
              subst htiu
              refine ⟨?_, ?_, ?_⟩
              · intro c hc
                have hc2 : c ∈ (((t.drop 8).dropWhile goIsSpace).dropWhile
                    (fun c => c.isDigit)).tail.dropWhile goIsSpace := by
                  rw [hr3]
                  exact List.mem_append_left _ hc
                have hc3 := (List.dropWhile_sublist goIsSpace).subset hc2
                have hc4 := (List.tail_sublist _).subset hc3
                have hc5 := (List.dropWhile_sublist (fun c : Char => c.isDigit)).subset hc4
                have hc6 := (List.dropWhile_sublist goIsSpace).subset hc5
                exact List.drop_subset 8 t hc6
              · intro c hc
                cases hu : ti0 with
                | nil => rw [hu] at hc; cases hc
                | cons c0 u2 =>
                  rw [hu] at hc hr3
                  have hc0 : c0 = c := by simpa using hc
                  subst hc0
                  rw [List.cons_append] at hr3
                  exact dropWhile_head_chr goIsSpace _ _ _ hr3
              · intro c hc
                cases hsp : goIsSpace c with
                | false => rfl
                | true =>
                  exfalso
                  obtain ⟨w, hw⟩ := getLast?_some_decomp ti0 c hc
                  have hnone := hmin w [c] hw (by simp)
                  rw [show ([c] : Str) ++ v = c :: v from rfl] at hnone
                  rw [checkHere_cons_space c v hsp] at hnone
                  rw [hcv] at hnone
                  cases hnone
        · rw [if_neg h3] at h; cases h
  · rw [if_neg h0] at h; cases h

theorem itemMatch_some_inv (t de numS : Str) (h : itemMatch t = some (de, numS)) :
    ∀ c ∈ de, c ∈ t := by
  simp only [itemMatch] at h
  by_cases h0 : t.head? = some '-'
  · rw [if_pos h0] at h
    by_cases h1 : t.tail.takeWhile goIsSpace = []
    · rw [if_pos h1] at h; cases h
    · rw [if_neg h1] at h
      obtain ⟨u, v, hde, hr, _, _⟩ := lazySplit_decomp _ _ _ _ h
      simp only [List.reverse_nil, List.nil_append] at hde
      subst hde
      intro c hc
      have h2 : c ∈ t.tail.dropWhile goIsSpace := by
        rw [hr]
        exact List.mem_append_left _ hc
      exact (List.tail_sublist t).subset ((List.dropWhile_sublist goIsSpace).subset h2)
  · rw [if_neg h0] at h; cases h

theorem drop8_CRITERIA (x : Str) : (strL "CRITERIA" ++ x).drop 8 = x := rfl

theorem takeWhile_cons_pos (p : Char → Bool) (c : Char) (l : Str) (h : p c = true) :
    (c :: l).takeWhile p = c :: l.takeWhile p := by
  rw [List.takeWhile_cons, if_pos h]

theorem takeWhile_cons_neg (p : Char → Bool) (c : Char) (l : Str) (h : p c = false) :
    (c :: l).takeWhile p = [] := by
  rw [List.takeWhile_cons, if_neg (by simp [h])]

theorem dropWhile_cons_pos (p : Char → Bool) (c : Char) (l : Str) (h : p c = true) :
    (c :: l).dropWhile p = l.dropWhile p := by
  rw [List.dropWhile_cons, if_pos h]

theorem dropWhile_cons_neg (p : Char → Bool) (c : Char) (l : Str) (h : p c = false) :
    (c :: l).dropWhile p = c :: l := by
  rw [List.dropWhile_cons, if_neg (by simp [h])]

theorem critMatch_rendered (k : Nat) (ti fs : Str) (hfs : fsShape fs)
    (hh : ∀ c, ti.head? = some c → goIsSpace c = false)
    (hl : ∀ c, ti.getLast? = some c → goIsSpace c = false) :
    critMatch (strL "CRITERIA " ++ natToDec k ++ strL ": " ++ ti ++ strL " (0-" ++ fs ++
        strL " marks)") =
      some (natToDec k, ti, fs) := by
  obtain ⟨d, ds', hdk⟩ : ∃ d ds', natToDec k = d :: ds' := by
    cases hnk : natToDec k with
    | nil => exact absurd hnk (natToDec_ne_nil k)
    | cons d ds' => exact ⟨d, ds', rfl⟩
  have hdmem : d ∈ natToDec k := hdk ▸ List.mem_cons_self d ds'
  have hdsp : goIsSpace d = false :=
    digitsOnly_not_space _ (digitsOnly_natToDec k) d hdmem
  have hddig : ∀ c ∈ (d :: ds' : Str), c.isDigit = true := by
    rw [← hdk]
    exact digitsOnly_isDigit _ (digitsOnly_natToDec k)
  have hcanon : strL "CRITERIA " ++ natToDec k ++ strL ": " ++ ti ++ strL " (0-" ++ fs ++
      strL " marks)" =
      strL "CRITERIA" ++ (' ' :: (natToDec k ++ (':' :: (' ' :: (ti ++
        (' ' :: '(' :: '0' :: '-' :: (fs ++ strL " marks)"))))))) := by
    simp only [List.append_assoc]
    rfl
  rw [hcanon]
  simp only [critMatch]
  rw [if_pos (isPrefixOf_self_append (strL "CRITERIA") _)]
  rw [drop8_CRITERIA]
  rw [takeWhile_cons_pos goIsSpace ' ' _ (by decide),
      dropWhile_cons_pos goIsSpace ' ' _ (by decide)]
  rw [hdk]
  rw [show ((d :: ds' : Str) ++ (':' :: (' ' :: (ti ++
      (' ' :: '(' :: '0' :: '-' :: (fs ++ strL " marks)")))))) =
    d :: (ds' ++ (':' :: (' ' :: (ti ++
      (' ' :: '(' :: '0' :: '-' :: (fs ++ strL " marks)")))))) from rfl]
  rw [takeWhile_cons_neg goIsSpace d _ hdsp, dropWhile_cons_neg goIsSpace d _ hdsp]
  rw [if_neg (show ¬((' ' :: ([] : Str)) = []) from by simp)]
  rw [show (d :: (ds' ++ (':' :: (' ' :: (ti ++
      (' ' :: '(' :: '0' :: '-' :: (fs ++ strL " marks)"))))))) =
    ((d :: ds' : Str) ++ (':' :: (' ' :: (ti ++
      (' ' :: '(' :: '0' :: '-' :: (fs ++ strL " marks)")))))) from rfl]
  rw [takeWhile_stop (fun c => c.isDigit) (d :: ds') hddig ':' (by decide) _,
      dropWhile_stop (fun c => c.isDigit) (d :: ds') hddig ':' (by decide) _]
  rw [if_neg (show ¬((d :: ds' : Str) = []) from by simp)]
  rw [if_pos (show (':' :: (' ' :: (ti ++ (' ' :: '(' :: '0' :: '-' ::
      (fs ++ strL " marks)")))) : Str).head? = some ':' from rfl)]
  dsimp only [List.tail_cons]
  rw [takeWhile_cons_pos goIsSpace ' ' _ (by decide),
      dropWhile_cons_pos goIsSpace ' ' _ (by decide)]
  cases hti : ti with
  | nil =>
    rw [List.nil_append]
    rw [takeWhile_cons_pos goIsSpace ' ' _ (by decide),
        dropWhile_cons_pos goIsSpace ' ' _ (by decide)]
    rw [takeWhile_cons_neg goIsSpace '(' _ (by decide),
        dropWhile_cons_neg goIsSpace '(' _ (by decide)]
    rw [if_neg (show ¬((' ' :: ' ' :: ([] : Str)) = []) from by simp)]
    have hch : checkHere ('(' :: '0' :: '-' :: (fs ++ strL " marks)")) = some fs := by
      rw [← checkHere_cons_space ' ' _ (by decide)]
      exact checkHere_tail fs hfs
    rw [lazySplit_here [] _ fs hch]
    rfl
  | cons c0 ti2 =>
    have hc0 : goIsSpace c0 = false := hh c0 (by rw [hti]; rfl)
    rw [show ((c0 :: ti2 : Str) ++ (' ' :: '(' :: '0' :: '-' :: (fs ++ strL " marks)"))) =
      c0 :: (ti2 ++ (' ' :: '(' :: '0' :: '-' :: (fs ++ strL " marks)"))) from rfl]
    rw [takeWhile_cons_neg goIsSpace c0 _ hc0, dropWhile_cons_neg goIsSpace c0 _ hc0]
    rw [if_neg (show ¬((' ' :: ([] : Str)) = []) from by simp)]
    rw [show (c0 :: (ti2 ++ (' ' :: '(' :: '0' :: '-' :: (fs ++ strL " marks)")))) =
      ((c0 :: ti2 : Str) ++ (' ' :: '(' :: '0' :: '-' :: (fs ++ strL " marks)"))) from rfl]
    have hT : checkHere (' ' :: '(' :: '0' :: '-' :: (fs ++ strL " marks)")) = some fs :=
      checkHere_tail fs hfs
    have hmin : ∀ p s : Str, (c0 :: ti2 : Str) = p ++ s → s ≠ [] →
        checkHere (s ++ (' ' :: '(' :: '0' :: '-' :: (fs ++ strL " marks)"))) = none := by
      intro p s hps hs
      have hgl : s.getLast? = ti.getLast? := by
        rw [hti, hps]
        exact (getLast?_append_right p s hs).symm
      cases hgls : s.getLast? with
      | none =>
        cases s with
        | nil => exact absurd rfl hs
        | cons a as => simp at hgls
      | some cl =>
        have hclsp : goIsSpace cl = false := hl cl (hgl ▸ hgls)
        obtain ⟨w, hw⟩ := getLast?_some_decomp s cl hgls
        refine checkHere_inside s _ ⟨cl, ?_, hclsp⟩ (by simp)
        rw [hw]
        exact List.mem_append_right _ (List.mem_singleton.mpr rfl)
    rw [lazySplit_prepend _ fs hT (c0 :: ti2) [] hmin]
    rfl

/-! ### C1 support: reading back the rendered score -/

theorem normScore_step (n e : Nat) : normScore n (e + 1) =
    if n % 10 = 0 then normScore (n / 10) e else ⟨n, e + 1⟩ := rfl

theorem normScore_mul10 (n e : Nat) : normScore (n * 10) (e + 1) = normScore n e := by
  rw [normScore_step, if_pos (Nat.mul_mod_left n 10)]
  congr 1
  omega

theorem normScore_normalized (e : Nat) : ∀ n : Nat,
    (normScore n e).exp10 = 0 ∨ (normScore n e).num % 10 ≠ 0 := by
  induction e with
  | zero => exact fun n => Or.inl rfl
  | succ e ih =>
    intro n
    rw [normScore_step]
    by_cases h : n % 10 = 0
    · rw [if_pos h]
      exact ih (n / 10)
    · rw [if_neg h]
      exact Or.inr h

theorem atofSafe_normalized (s : Str) :
    (atofSafe s).exp10 = 0 ∨ (atofSafe s).num % 10 ≠ 0 := by
  simp only [atofSafe]
  by_cases h : (s.dropWhile (fun c => c.isDigit)).head? = some '.'
  · rw [if_pos h]
    exact normScore_normalized _ _
  · rw [if_neg h]
    exact Or.inl rfl

theorem atofSafe_natToDec (n : Nat) : atofSafe (natToDec n) = ⟨n, 0⟩ := by
  simp only [atofSafe]
  rw [takeWhile_all (fun c => c.isDigit) (natToDec n)
        (digitsOnly_isDigit _ (digitsOnly_natToDec n)),
      List.dropWhile_eq_nil_iff.mpr (digitsOnly_isDigit _ (digitsOnly_natToDec n))]
  rw [if_neg (show ¬((List.head? ([] : Str)) = some '.') from by decide)]
  rw [digitsVal_natToDec]

theorem digitsVal_single (k : Nat) (h : k < 10) : digitsVal [digitChar k] = k := by
  simp [digitsVal, digitVal_digitChar k h]

theorem digitsVal_two (k1 k2 : Nat) (h1 : k1 < 10) (h2 : k2 < 10) :
    digitsVal [digitChar k1, digitChar k2] = 10 * k1 + k2 := by
  simp [digitsVal, digitVal_digitChar k1 h1, digitVal_digitChar k2 h2]

theorem atofSafe_frac (A : Nat) (ds : Str) (_hdig : digitsOnly ds) :
    atofSafe (natToDec A ++ '.' :: ds) =
      normScore (A * 10 ^ ds.length + digitsVal ds) ds.length := by
  simp only [atofSafe]
  rw [takeWhile_stop (fun c => c.isDigit) (natToDec A)
        (digitsOnly_isDigit _ (digitsOnly_natToDec A)) '.' (by decide) ds,
      dropWhile_stop (fun c => c.isDigit) (natToDec A)
        (digitsOnly_isDigit _ (digitsOnly_natToDec A)) '.' (by decide) ds]
  rw [if_pos (show ('.' :: ds : Str).head? = some '.' from rfl)]
  dsimp only [List.tail_cons]
  rw [digitsVal_natToDec]

/-! ### C1 support: what the parsed sections may contain -/

theorem instrStep_lines (acc l : Str) (hl : '\n' ∉ l) :
    ∀ y ∈ splitNL (instrStep acc l), y ∈ splitNL acc ∨ y = [] ∨ y = trimSpace l := by
  intro y hy
  simp only [instrStep] at hy
  have htl : '\n' ∉ trimSpace l := fun hc => hl (trimSpace_subset l '\n' hc)
  by_cases hb : trimSpace l = []
  · rw [if_pos hb] at hy
    rw [show acc ++ ['\n'] = acc ++ '\n' :: ([] : Str) from rfl, splitNL_append] at hy
    rcases List.mem_append.mp hy with h3 | h3
    · exact Or.inl h3
    · rw [show splitNL ([] : Str) = [[]] from rfl] at h3
      exact Or.inr (Or.inl (List.mem_singleton.mp h3))
  · rw [if_neg hb] at hy
    by_cases ha : acc = []
    · rw [if_neg (show ¬(acc ≠ []) from by simp [ha]), ha, List.nil_append] at hy
      rw [splitNL_no_newline _ htl] at hy
      exact Or.inr (Or.inr (List.mem_singleton.mp hy))
    · rw [if_pos (show acc ≠ [] from ha), List.append_assoc,
        show (['\n'] : Str) ++ trimSpace l = '\n' :: trimSpace l from rfl,
        splitNL_append] at hy
      rcases List.mem_append.mp hy with h3 | h3
      · exact Or.inl h3
      · rw [splitNL_no_newline _ htl] at h3
        exact Or.inr (Or.inr (List.mem_singleton.mp h3))

theorem ansStep_lines (acc l : Str) (hl : '\n' ∉ l) :
    ∀ y ∈ splitNL (ansStep acc l), y ∈ splitNL acc ∨ y = [] ∨ y = l := by
  intro y hy
  simp only [ansStep] at hy
  by_cases hb : trimSpace l = []
  · rw [if_pos hb] at hy
    rw [show acc ++ ['\n'] = acc ++ '\n' :: ([] : Str) from rfl, splitNL_append] at hy
    rcases List.mem_append.mp hy with h3 | h3
    · exact Or.inl h3
    · rw [show splitNL ([] : Str) = [[]] from rfl] at h3
      exact Or.inr (Or.inl (List.mem_singleton.mp h3))
  · rw [if_neg hb] at hy
    by_cases ha : acc = []
    · rw [if_neg (show ¬(acc ≠ []) from by simp [ha]), ha, List.nil_append] at hy
      rw [splitNL_no_newline _ hl] at hy
      exact Or.inr (Or.inr (List.mem_singleton.mp hy))
    · rw [if_pos (show acc ≠ [] from ha), List.append_assoc,
        show (['\n'] : Str) ++ l = '\n' :: l from rfl,
        splitNL_append] at hy
      rcases List.mem_append.mp hy with h3 | h3
      · exact Or.inl h3
      · rw [splitNL_no_newline _ hl] at h3
        exact Or.inr (Or.inr (List.mem_singleton.mp h3))

theorem instr_fold_lines (ls : List Str) : ∀ acc : Str, (∀ l ∈ ls, '\n' ∉ l) →
    ∀ x ∈ splitNL (ls.foldl instrStep acc),
      x ∈ splitNL acc ∨ x = [] ∨ ∃ l ∈ ls, x = trimSpace l := by
  induction ls with
  | nil =>
    intro acc _ x hx
    exact Or.inl hx
  | cons l ls2 ih =>
    intro acc hnl x hx
    rw [List.foldl_cons] at hx
    rcases ih (instrStep acc l) (fun y hy => hnl y (List.mem_cons_of_mem _ hy)) x hx with
      h3 | h3 | ⟨l2, hl2, he⟩
    · rcases instrStep_lines acc l (hnl l (List.mem_cons_self _ _)) x h3 with h4 | h4 | h4
      · exact Or.inl h4
      · exact Or.inr (Or.inl h4)
      · exact Or.inr (Or.inr ⟨l, List.mem_cons_self _ _, h4⟩)
    · exact Or.inr (Or.inl h3)
    · exact Or.inr (Or.inr ⟨l2, List.mem_cons_of_mem _ hl2, he⟩)

theorem ans_fold_lines (ls : List Str) : ∀ acc : Str, (∀ l ∈ ls, '\n' ∉ l) →
    ∀ x ∈ splitNL (ls.foldl ansStep acc),
      x ∈ splitNL acc ∨ x = [] ∨ x ∈ ls := by
  induction ls with
  | nil =>
    intro acc _ x hx
    exact Or.inl hx
  | cons l ls2 ih =>
    intro acc hnl x hx
    rw [List.foldl_cons] at hx
    rcases ih (ansStep acc l) (fun y hy => hnl y (List.mem_cons_of_mem _ hy)) x hx with
      h3 | h3 | h3
    · rcases ansStep_lines acc l (hnl l (List.mem_cons_self _ _)) x h3 with h4 | h4 | h4
      · exact Or.inl h4
      · exact Or.inr (Or.inl h4)
      · exact Or.inr (Or.inr (h4 ▸ List.mem_cons_self _ _))
    · exact Or.inr (Or.inl h3)
    · exact Or.inr (Or.inr (List.mem_cons_of_mem _ h3))

theorem bulletStore_subset (t : Str) : ∀ c ∈ bulletStore t, c ∈ t := by
  intro c hc
  simp only [bulletStore] at hc
  by_cases h1 : (strL "•").isPrefixOf t = true
  · rw [if_pos h1] at hc
    exact List.drop_subset 1 t (trimSpace_subset _ c hc)
  · rw [if_neg h1] at hc
    by_cases h2 : ((strL "-").isPrefixOf t || (strL "*").isPrefixOf t) = true
    · rw [if_pos h2] at hc
      exact (List.dropWhile_sublist _).subset (trimSpace_subset _ c hc)
    · rw [if_neg h2] at hc
      exact hc

theorem qRun_title (ls : List Str) :
    (qRun ls).1 = [] ∨ ∃ l ∈ ls, (qRun ls).1 = trimSpace l := by
  simp only [qRun]
  rw [qfold_untitled ls []]
  dsimp only
  cases hd : ((ls.map trimSpace).filter (fun t => t ≠ [])).dropWhile
      (fun t => isBulletLine t) with
  | nil => exact Or.inl rfl
  | cons a rest =>
    right
    have ha : a ∈ (ls.map trimSpace).filter (fun t => t ≠ []) :=
      (List.dropWhile_sublist _).subset (hd ▸ List.mem_cons_self a rest)
    obtain ⟨l, hl, he⟩ := List.mem_map.mp ((List.filter_sublist _).subset ha)
    refine ⟨l, hl, ?_⟩
    exact he.symm

theorem qRun_bullets (ls : List Str) :
    ∀ b ∈ (qRun ls).2, ∃ l ∈ ls, ∀ c ∈ b, c ∈ l := by
  simp only [qRun]
  rw [qfold_untitled ls []]
  dsimp only
  intro b hb
  rw [List.nil_append] at hb
  rcases List.mem_map.mp hb with ⟨t, ht, hbs⟩
  have ht2 : t ∈ (ls.map trimSpace).filter (fun t => t ≠ []) := by
    rcases List.mem_append.mp ht with h1 | h1
    · exact (List.takeWhile_sublist _).subset h1
    · exact (List.dropWhile_sublist _).subset (List.drop_subset 1 _ h1)
  obtain ⟨l, hl, he⟩ := List.mem_map.mp ((List.filter_sublist _).subset ht2)
  refine ⟨l, hl, ?_⟩
  intro c hc
  rw [← hbs] at hc
  have hc2 := bulletStore_subset t c hc
  rw [← he] at hc2
  exact trimSpace_subset l c hc2

theorem hdrSegsAux_mem : ∀ (n : Nat) (ls : List Str), ∀ p ∈ hdrSegsAux n ls,
    p.1 ∈ ls ∧ ∀ l ∈ p.2, l ∈ ls := by
  intro n
  induction n with
  | zero =>
    intro ls p hp
    simp [hdrSegsAux] at hp
  | succ n ih =>
    intro ls p hp
    simp only [hdrSegsAux] at hp
    cases hd : ls.dropWhile (fun l => !isHeader l) with
    | nil =>
      rw [hd] at hp
      simp at hp
    | cons h rest =>
      rw [hd] at hp
      have hsub : ∀ x ∈ (h :: rest : List Str), x ∈ ls := fun x hx =>
        (List.dropWhile_sublist _).subset (hd ▸ hx)
      rcases List.mem_cons.mp hp with h1 | h1
      · subst h1
        refine ⟨hsub h (List.mem_cons_self _ _), ?_⟩
        intro l hl
        exact hsub l (List.mem_cons_of_mem _ ((List.takeWhile_sublist _).subset hl))
      · obtain ⟨h2, h3⟩ := ih (rest.dropWhile (fun l => !isHeader l)) p h1
        have hsub2 : ∀ x ∈ rest.dropWhile (fun l => !isHeader l), x ∈ ls := fun x hx =>
          hsub x (List.mem_cons_of_mem _ ((List.dropWhile_sublist _).subset hx))
        exact ⟨hsub2 _ h2, fun l hl => hsub2 l (h3 l hl)⟩

theorem hdrSegs_mem (ls : List Str) (p : Str × List Str) (hp : p ∈ hdrSegs ls) :
    p.1 ∈ ls ∧ ∀ l ∈ p.2, l ∈ ls := hdrSegsAux_mem ls.length ls p hp

theorem mem_enumFrom_snd {α : Type} : ∀ (l : List α) (n : Nat) (p : Nat × α),
    p ∈ l.enumFrom n → p.2 ∈ l := by
  intro l
  induction l with
  | nil =>
    intro n p hp
    simp [List.enumFrom] at hp
  | cons a as ih =>
    intro n p hp
    simp only [List.enumFrom] at hp
    rcases List.mem_cons.mp hp with h1 | h1
    · subst h1
      exact List.mem_cons_self _ _
    · exact List.mem_cons_of_mem _ (ih (n + 1) p h1)

theorem withKeys_snd_mem (cs : List Criterion) (oc : Nat × Criterion)
    (h : oc ∈ withKeys cs) : oc.2 ∈ cs := by
  simp only [withKeys] at h
  rcases List.mem_map.mp h with ⟨p, hp, he⟩
  have h2 : p.2 ∈ cs := mem_enumFrom_snd cs 0 p hp
  rw [← he]
  exact h2

theorem parsed_crit_inv (raw : Str) : ∀ c ∈ (ParseRawEvaluationTemplate raw).2.1,
    (∀ ch, c.title.head? = some ch → goIsSpace ch = false) ∧
    (∀ ch, c.title.getLast? = some ch → goIsSpace ch = false) ∧
    '\n' ∉ c.title ∧
    (c.maxScore.exp10 = 0 ∨ c.maxScore.num % 10 ≠ 0) ∧
    (∀ it ∈ c.items, '\n' ∉ it.description) := by
  intro c hc
  rw [parse_criteria_eq raw] at hc
  rcases List.mem_map.mp hc with ⟨p, hp, he⟩
  obtain ⟨hp1, hp2⟩ := hdrSegs_mem _ p hp
  have hhdr : isHeader p.1 = true :=
    hdrSegs_head_isHeader (rawSecLines raw Sec.crit).length _ (Nat.le_refl _) p hp
  rcases hcm : critMatch (trimSpace p.1) with _ | ⟨ds, ti, numS⟩
  · exfalso
    simp [isHeader, hcm] at hhdr
  · have hcval : c = ⟨atoiSafe ds, ti, atofSafe numS,
        (p.2.filterMap (fun l => itemMatch (trimSpace l))).map
          (fun q => ⟨q.1, atofSafe q.2⟩)⟩ := by
      rw [← he]
      simp [mkFromSeg, hcm]
    obtain ⟨hsub, hhead, hlast⟩ := critMatch_some_inv _ _ _ _ hcm
    subst hcval
    refine ⟨fun ch h => hhead ch h, fun ch h => hlast ch h, ?_, atofSafe_normalized numS, ?_⟩
    · intro hnl
      have h2 := hsub '\n' hnl
      have h3 := trimSpace_subset p.1 '\n' h2
      exact rawSecLines_no_newline raw Sec.crit p.1 hp1 h3
    · intro it hit
      rcases List.mem_map.mp hit with ⟨q, hq, heq⟩
      obtain ⟨de, ns⟩ := q
      rcases List.mem_filterMap.mp hq with ⟨l, hlmem, hq2⟩
      intro hnl
      rw [← heq] at hnl
      have h2 := itemMatch_some_inv _ _ _ hq2 '\n' hnl
      have h3 := trimSpace_subset l '\n' h2
      exact rawSecLines_no_newline raw Sec.crit l (hp2 l hlmem) h3

/-! ### C1 support: the rendered lines seen again by the parser -/

theorem headerLine_head (oc : Nat × Criterion) : (headerLine oc).head? = some 'C' := rfl

theorem headerLine_getLast (oc : Nat × Criterion) : (headerLine oc).getLast? = some ')' := by
  simp only [headerLine]
  rw [getLast?_append_right _ (strL " marks)") (by decide)]
  decide

theorem headerLine_trim (oc : Nat × Criterion) : trimSpace (headerLine oc) = headerLine oc := by
  refine trimSpace_eq_self _ (fun c h => ?_) (fun c h => ?_)
  · rw [headerLine_head] at h
    have h2 : c = 'C' := by simpa using h.symm
    subst h2
    decide
  · rw [headerLine_getLast] at h
    have h2 : c = ')' := by simpa using h.symm
    subst h2
    decide

theorem headerLine_CR (oc : Nat × Criterion) :
    trimRightWhile (fun c => c = '\r') (headerLine oc) = headerLine oc := by
  refine trimRightWhile_eq_self _ _ (fun c h => ?_)
  rw [headerLine_getLast] at h
  have h2 : c = ')' := by simpa using h.symm
  subst h2
  decide

theorem itemLine_cons (it : CriterionItem) : itemLine it =
    '-' :: ' ' :: (it.description ++ strL "  (0-" ++ formatScore it.maxScore ++
      strL " marks)") := rfl

theorem itemLine_head (it : CriterionItem) : (itemLine it).head? = some '-' := rfl

theorem itemLine_getLast (it : CriterionItem) : (itemLine it).getLast? = some ')' := by
  simp only [itemLine]
  rw [getLast?_append_right _ (strL " marks)") (by decide)]
  decide

theorem itemLine_CR (it : CriterionItem) :
    trimRightWhile (fun c => c = '\r') (itemLine it) = itemLine it := by
  refine trimRightWhile_eq_self _ _ (fun c h => ?_)
  rw [itemLine_getLast] at h
  have h2 : c = ')' := by simpa using h.symm
  subst h2
  decide

theorem itemLine_not_header (it : CriterionItem) : isHeader (itemLine it) = false := by
  rw [itemLine_cons it]
  obtain ⟨r2, hr2⟩ := trimSpace_head '-' (by decide)
    (' ' :: (it.description ++ strL "  (0-" ++ formatScore it.maxScore ++ strL " marks)"))
  simp only [isHeader]
  rw [hr2, critMatch_head _ (by simp)]
  rfl

theorem bulletLine_head (b : Str) : (bulletLine b).head? = some '•' := rfl

theorem nonmarker_of_head (l : Str) (c : Char) (hc : l.head? = some c)
    (hsp : goIsSpace c = false) (hne : c ≠ '=') : markerSec (trimSpace l) = none := by
  cases l with
  | nil => cases hc
  | cons a r =>
    have ha : a = c := by simpa using hc
    subst ha
    obtain ⟨r2, hr2⟩ := trimSpace_head a hsp r
    rw [hr2]
    exact markerSec_head _ (by simp [hne])

theorem headerLine_no_newline (oc : Nat × Criterion) (htn : '\n' ∉ oc.2.title) :
    '\n' ∉ headerLine oc := by
  intro hc
  simp only [headerLine, List.mem_append] at hc
  rcases hc with ((((((h | h) | h) | h) | h) | h) | h)
  · revert h; decide
  · rcases natToDec_chars oc.1 '\n' h with ⟨k, hk, he⟩
    exact (digitChar_facts k hk).2.2.2.1 he.symm
  · revert h; decide
  · exact htn h
  · revert h; decide
  · exact fsShape_no_newline _ (formatScore_fsShape oc.2.maxScore) h
  · revert h; decide

theorem itemLine_no_newline (it : CriterionItem) (hd : '\n' ∉ it.description) :
    '\n' ∉ itemLine it := by
  intro hc
  simp only [itemLine, List.mem_append] at hc
  rcases hc with ((((h | h) | h) | h) | h)
  · revert h; decide
  · exact hd h
  · revert h; decide
  · exact fsShape_no_newline _ (formatScore_fsShape it.maxScore) h
  · revert h; decide

theorem map_CR_id (ls : List Str)
    (h : ∀ l ∈ ls, trimRightWhile (fun c => c = '\r') l = l) :
    ls.map (trimRightWhile (fun c => c = '\r')) = ls := by
  induction ls with
  | nil => rfl
  | cons a as ih =>
    rw [List.map_cons, h a (List.mem_cons_self _ _),
      ih (fun x hx => h x (List.mem_cons_of_mem _ hx))]

theorem takeWhile_all_strs (p : Str → Bool) (ls : List Str) (h : ∀ l ∈ ls, p l = true) :
    ls.takeWhile p = ls := by
  induction ls with
  | nil => rfl
  | cons a as ih =>
    rw [List.takeWhile_cons, if_pos (h a (List.mem_cons_self _ _)),
      ih (fun x hx => h x (List.mem_cons_of_mem _ hx))]

theorem hdrSegs_single (hl : Str) (seg : List Str) (hh : isHeader hl = true)
    (hseg : ∀ l ∈ seg, isHeader l = false) :
    hdrSegs (hl :: seg) = [(hl, seg)] := by
  rw [hdrSegs_eq]
  rw [show (hl :: seg).dropWhile (fun l => !isHeader l) = hl :: seg from by
    rw [List.dropWhile_cons, if_neg (by simp [hh])]]
  dsimp only
  rw [takeWhile_all_strs _ seg (fun l hl2 => by simp [hseg l hl2])]
  rw [List.dropWhile_eq_nil_iff.mpr (fun l hl2 => by simp [hseg l hl2])]
  rw [show hdrSegs ([] : List Str) = [] from rfl]

theorem secLines_all_skip (target sec : Sec) (ls : List Str)
    (h : ∀ l ∈ ls, markerSec (trimSpace l) = none) (hne : sec ≠ target) :
    secLines target sec ls = [] := by
  induction ls with
  | nil => rfl
  | cons a as ih =>
    rw [secLines_cons_skip target sec a as (h a (List.mem_cons_self _ _)) hne]
    exact ih (fun x hx => h x (List.mem_cons_of_mem _ hx))

theorem reparse_crit_lines (I qt A : Str) (bl : List Str) (oc : Nat × Criterion)
    (hbl : ∀ b ∈ bl, b ≠ [] ∧ '\n' ∉ b)
    (hIm : ∀ x ∈ splitNL (trimSpace I), markerSec (trimSpace x) = none)
    (hqm : markerSec (trimSpace qt) = none) (hqn : '\n' ∉ qt)
    (hAm : ∀ x ∈ splitNL A, markerSec (trimSpace x) = none)
    (htn : '\n' ∉ oc.2.title)
    (hit : ∀ it ∈ oc.2.items, '\n' ∉ it.description) :
    rawSecLines (renderTemplate I qt bl A oc).prompt Sec.crit =
      headerLine oc :: oc.2.items.map itemLine := by
  have hlines : ∀ l ∈ ([mINSTR] ++ splitNL (trimSpace I) ++ [mCRIT, headerLine oc] ++
      (oc.2.items.map itemLine) ++ [mQUEST] ++ (if qt ≠ [] then [qt] else []) ++
      (bl.map bulletLine) ++ [mANS]), '\n' ∉ l := by
    intro l hl
    rcases List.mem_append.mp hl with hl1 | hl1
    · rcases List.mem_append.mp hl1 with hl2 | hl2
      · rcases List.mem_append.mp hl2 with hl3 | hl3
        · rcases List.mem_append.mp hl3 with hl4 | hl4
          · rcases List.mem_append.mp hl4 with hl5 | hl5
            · rcases List.mem_append.mp hl5 with hl6 | hl6
              · rcases List.mem_append.mp hl6 with hl7 | hl7
                · rcases List.mem_singleton.mp hl7 with h
                  subst h
                  decide
                · exact mem_splitNL_no_newline (trimSpace I) l hl7
              · rcases List.mem_cons.mp hl6 with h | h
                · subst h; decide
                · rcases List.mem_singleton.mp h with h2
                  subst h2
                  exact headerLine_no_newline oc htn
            · rcases List.mem_map.mp hl5 with ⟨it, hit2, h⟩
              subst h
              exact itemLine_no_newline it (hit it hit2)
          · rcases List.mem_singleton.mp hl4 with h
            subst h
            decide
        · by_cases hq : qt ≠ []
          · rw [if_pos hq] at hl3
            rcases List.mem_singleton.mp hl3 with h
            subst h
            exact hqn
          · rw [if_neg hq] at hl3
            simp at hl3
      · rcases List.mem_map.mp hl2 with ⟨b, hb2, h⟩
        subst h
        intro hc
        rcases List.mem_append.mp hc with h2 | h2
        · revert h2; decide
        · exact (hbl b hb2).2 h2
    · rcases List.mem_singleton.mp hl1 with h
      subst h
      decide
  rw [show rawSecLines (renderTemplate I qt bl A oc).prompt Sec.crit =
    secLines Sec.crit Sec.start (splitNL (renderTemplate I qt bl A oc).prompt) from rfl]
  rw [render_prompt_eq I qt A bl oc (fun b hb => (hbl b hb).1)]
  rw [splitNL_joinNL_append _ hlines _]
  simp only [List.append_assoc, List.cons_append, List.nil_append]
  rw [secLines_cons_marker Sec.crit Sec.start mINSTR Sec.instr _ (by decide)]
  rw [secLines_append_skip Sec.crit Sec.instr _ _ hIm (by decide)]
  rw [secLines_cons_marker Sec.crit Sec.instr mCRIT Sec.crit _ (by decide)]
  rw [secLines_cons_same Sec.crit (headerLine oc) _
    (nonmarker_of_head _ 'C' (headerLine_head oc) (by decide) (by decide))]
  rw [headerLine_CR oc]
  rw [secLines_append_same Sec.crit (oc.2.items.map itemLine) _ (fun l hl => by
    rcases List.mem_map.mp hl with ⟨it, _, h⟩
    subst h
    exact nonmarker_of_head _ '-' (itemLine_head it) (by decide) (by decide))]
  rw [map_CR_id _ (fun l hl => by
    rcases List.mem_map.mp hl with ⟨it, _, h⟩
    subst h
    exact itemLine_CR it)]
  rw [secLines_cons_marker Sec.crit Sec.crit mQUEST Sec.quest _ (by decide)]
  have hrest : ∀ l ∈ splitNL (if A ≠ [] then A else []),
      markerSec (trimSpace l) = none := by
    by_cases hA : A ≠ []
    · rw [if_pos hA]
      exact hAm
    · rw [if_neg hA]
      intro l hl
      rcases List.mem_singleton.mp hl with h
      subst h
      decide
  have hbul : ∀ l ∈ bl.map bulletLine, markerSec (trimSpace l) = none := by
    intro l hl
    rcases List.mem_map.mp hl with ⟨b, _, h⟩
    subst h
    exact nonmarker_of_head _ '•' (bulletLine_head b) (by decide) (by decide)
  have hans : secLines Sec.crit Sec.quest
      (bl.map bulletLine ++ mANS :: splitNL (if A ≠ [] then A else [])) = [] := by
    rw [secLines_append_skip Sec.crit Sec.quest _ _ hbul (by decide)]
    rw [secLines_cons_marker Sec.crit Sec.quest mANS Sec.ans _ (by decide)]
    exact secLines_all_skip Sec.crit Sec.ans _ hrest (by decide)
  by_cases hq : qt ≠ []
  · rw [if_pos hq]
    rw [show ([qt] : List Str) ++ (bl.map bulletLine ++ mANS ::
      splitNL (if A ≠ [] then A else [])) = qt :: (bl.map bulletLine ++ mANS ::
      splitNL (if A ≠ [] then A else [])) from rfl]
    rw [secLines_cons_skip Sec.crit Sec.quest qt _ hqm (by decide)]
    rw [hans]
    simp
  · rw [if_neg hq, List.nil_append]
    rw [hans]
    simp

theorem reparse_one (I qt A : Str) (bl : List Str) (oc : Nat × Criterion)
    (hbl : ∀ b ∈ bl, b ≠ [] ∧ '\n' ∉ b)
    (hIm : ∀ x ∈ splitNL (trimSpace I), markerSec (trimSpace x) = none)
    (hqm : markerSec (trimSpace qt) = none) (hqn : '\n' ∉ qt)
    (hAm : ∀ x ∈ splitNL A, markerSec (trimSpace x) = none)
    (hth : ∀ ch, oc.2.title.head? = some ch → goIsSpace ch = false)
    (htl : ∀ ch, oc.2.title.getLast? = some ch → goIsSpace ch = false)
    (htn : '\n' ∉ oc.2.title)
    (hit : ∀ it ∈ oc.2.items, '\n' ∉ it.description) :
    ∃ c' : Criterion,
      (ParseRawEvaluationTemplate (renderTemplate I qt bl A oc).prompt).2.1 = [c'] ∧
      c'.title = oc.2.title ∧ c'.maxScore = atofSafe (formatScore oc.2.maxScore) := by
  have hcm : critMatch (trimSpace (headerLine oc)) =
      some (natToDec oc.1, oc.2.title, formatScore oc.2.maxScore) := by
    rw [headerLine_trim oc]
    exact critMatch_rendered oc.1 oc.2.title (formatScore oc.2.maxScore)
      (formatScore_fsShape oc.2.maxScore) hth htl
  have hhdr : isHeader (headerLine oc) = true := by
    simp only [isHeader]
    rw [hcm]
    rfl
  refine ⟨⟨atoiSafe (natToDec oc.1), oc.2.title, atofSafe (formatScore oc.2.maxScore),
    ((oc.2.items.map itemLine).filterMap (fun l => itemMatch (trimSpace l))).map
      (fun q => ⟨q.1, atofSafe q.2⟩)⟩, ?_, rfl, rfl⟩
  rw [parse_criteria_eq, reparse_crit_lines I qt A bl oc hbl hIm hqm hqn hAm htn hit]
  rw [hdrSegs_single (headerLine oc) (oc.2.items.map itemLine) hhdr (fun l hl => by
    rcases List.mem_map.mp hl with ⟨it, _, h⟩
    subst h
    exact itemLine_not_header it)]
  rw [List.map_cons, List.map_nil]
  rw [show mkFromSeg (headerLine oc, oc.2.items.map itemLine) =
    (⟨atoiSafe (natToDec oc.1), oc.2.title, atofSafe (formatScore oc.2.maxScore),
      ((oc.2.items.map itemLine).filterMap (fun l => itemMatch (trimSpace l))).map
        (fun q => ⟨q.1, atofSafe q.2⟩)⟩ : Criterion) from by
    simp [mkFromSeg, hcm]]

/-! ### C1: the round trip -/

/-- Counterexample document for C1: one criterion declaring 1.004 marks. -/
def c1cRaw : Str := strL "===CRITERIA===\nCRITERIA 1: A (0-1.004 marks)\n"

/-- The templates built from the C1 counterexample document. -/
def c1cTs : List CriterionTemplate := (BuildCriterionTemplatesFromRaw c1cRaw).toOption.getD []

/-- The single template built from the C1 counterexample document. -/
def c1cT : CriterionTemplate := c1cTs.getD 0 ⟨[], [], ⟨0, 0⟩⟩

/-- Counterexample to claim C1 as stated: on the document declaring a
maximum score of 1.004, building succeeds with one template whose maxScore
is 1.004, the template's prompt re-parses to exactly one criterion with the
same title, but that criterion's maxScore is 1 — the header renders the
score through %.2f (here "1"), so re-parsing reads the rounded value, not
the original. -/
theorem C1_cex :
    BuildCriterionTemplatesFromRaw c1cRaw = Except.ok [c1cT] ∧
    c1cT.maxScore = ⟨1004, 3⟩ ∧
    (ParseRawEvaluationTemplate c1cT.prompt).2.1.map Criterion.maxScore = [⟨1, 0⟩] ∧
    (ParseRawEvaluationTemplate c1cT.prompt).2.1.map Criterion.title = [c1cT.title] ∧
    (⟨1, 0⟩ : Score) ≠ ⟨1004, 3⟩ := by
  refine ⟨by decide, by decide, by decide, by decide, by decide⟩

/-- Claim C1 as amended: for every raw document on which
BuildCriterionTemplatesFromRaw succeeds, re-parsing the prompt text of each
produced CriterionTemplate yields exactly one criterion; its title equals
the original source criterion's title, and its maxScore is the value read
back from the header's rendered score — atofSafe of the formatScore
rendering of the original maxScore — which need not equal the original
maxScore, since the header renders the score through the two-decimal
formatter (1.004 renders as "1" and reads back as 1). -/
theorem C1_amended (raw : Str) (ts : List CriterionTemplate)
    (hok : BuildCriterionTemplatesFromRaw raw = Except.ok ts) :
    ∀ t ∈ ts, ∃ c' : Criterion,
      (ParseRawEvaluationTemplate t.prompt).2.1 = [c'] ∧
      c'.title = t.title ∧
      c'.maxScore = atofSafe (formatScore t.maxScore) := by
  intro t ht
  rw [build_def raw] at hok
  by_cases hcs : (ParseRawEvaluationTemplate raw).2.1 = []
  · rw [if_pos hcs] at hok
    cases hok
  · rw [if_neg hcs] at hok
    injection hok with hok'
    subst hok'
    rcases List.mem_map.mp ht with ⟨oc, hoc, hoc2⟩
    subst hoc2
    have hocmem : oc ∈ withKeys (ParseRawEvaluationTemplate raw).2.1 :=
      (sortStable_perm _).mem_iff.mp hoc
    have hcmem : oc.2 ∈ (ParseRawEvaluationTemplate raw).2.1 :=
      withKeys_snd_mem _ oc hocmem
    obtain ⟨hth, htl, htn, _, hitn⟩ := parsed_crit_inv raw oc.2 hcmem
    have hbl : ∀ b ∈ (((ParseRawEvaluationTemplate raw).2.2.2.1.map (fun b =>
        (trimSpace b).dropWhile
          (fun c => c = '•' || c = '-' || c = '*' || c = ' ' || c = '\t'))).filter
        (fun b => b ≠ [])), b ≠ [] ∧ '\n' ∉ b := by
      intro b hb
      have hb1 := List.mem_filter.mp hb
      refine ⟨by simpa using hb1.2, ?_⟩
      rcases List.mem_map.mp hb1.1 with ⟨b0, hb0, hbe⟩
      rw [parse_factored raw] at hb0
      rcases List.mem_map.mp hb0 with ⟨b1, hb1m, hb1e⟩
      obtain ⟨l, hlm, hsub⟩ := qRun_bullets _ b1 hb1m
      intro hc
      rw [← hbe] at hc
      have hc2 := (List.dropWhile_sublist _).subset hc
      rw [← hb1e] at hc2
      have hc3 := trimSpace_subset _ _ hc2
      have hc4 := trimSpace_subset _ _ hc3
      exact rawSecLines_no_newline raw Sec.quest l hlm (hsub '\n' hc4)
    have hIm : ∀ x ∈ splitNL (trimSpace (ParseRawEvaluationTemplate raw).1),
        markerSec (trimSpace x) = none := by
      intro x hx
      rw [parse_factored raw] at hx
      rw [show ((trimSpace (instrJoin (rawSecLines raw Sec.instr)),
        sealCur (critRun (rawSecLines raw Sec.crit)).1 (critRun (rawSecLines raw Sec.crit)).2,
        (qRun (rawSecLines raw Sec.quest)).1,
        (qRun (rawSecLines raw Sec.quest)).2.map trimSpace,
        trimSpace (ansJoin (rawSecLines raw Sec.ans)))).1 =
        trimSpace (instrJoin (rawSecLines raw Sec.instr)) from rfl] at hx
      rw [trimSpace_idem] at hx
      obtain ⟨y, hy, hxy⟩ := lines_trimSpace (instrJoin (rawSecLines raw Sec.instr)) x hx
      rw [hxy]
      rcases instr_fold_lines (rawSecLines raw Sec.instr) []
          (rawSecLines_no_newline raw Sec.instr) y hy with h1 | h1 | ⟨l, hlm, he⟩
      · rw [show splitNL ([] : Str) = [[]] from rfl] at h1
        rcases List.mem_singleton.mp h1 with h2
        subst h2
        decide
      · subst h1
        decide
      · subst he
        rw [trimSpace_idem]
        exact rawSecLines_no_marker raw Sec.instr l hlm
    have hqf : (ParseRawEvaluationTemplate raw).2.2.1 =
        (qRun (rawSecLines raw Sec.quest)).1 := by
      rw [parse_factored raw]
    have hqm : markerSec (trimSpace (ParseRawEvaluationTemplate raw).2.2.1) = none := by
      rw [hqf]
      rcases qRun_title (rawSecLines raw Sec.quest) with h1 | ⟨l, hlm, he⟩
      · rw [h1]
        decide
      · rw [he, trimSpace_idem]
        exact rawSecLines_no_marker raw Sec.quest l hlm
    have hqn : '\n' ∉ (ParseRawEvaluationTemplate raw).2.2.1 := by
      rw [hqf]
      rcases qRun_title (rawSecLines raw Sec.quest) with h1 | ⟨l, hlm, he⟩
      · rw [h1]
        simp
      · rw [he]
        intro hc
        exact rawSecLines_no_newline raw Sec.quest l hlm (trimSpace_subset _ _ hc)
    have hAm : ∀ x ∈ splitNL (ParseRawEvaluationTemplate raw).2.2.2.2,
        markerSec (trimSpace x) = none := by
      intro x hx
      rw [parse_factored raw] at hx
      obtain ⟨y, hy, hxy⟩ := lines_trimSpace (ansJoin (rawSecLines raw Sec.ans)) x hx
      rw [hxy]
      rcases ans_fold_lines (rawSecLines raw Sec.ans) []
          (rawSecLines_no_newline raw Sec.ans) y hy with h1 | h1 | h1
      · rw [show splitNL ([] : Str) = [[]] from rfl] at h1
        rcases List.mem_singleton.mp h1 with h2
        subst h2
        decide
      · subst h1
        decide
      · exact rawSecLines_no_marker raw Sec.ans y h1
    obtain ⟨c', hc1, hc2, hc3⟩ := reparse_one (ParseRawEvaluationTemplate raw).1
      (ParseRawEvaluationTemplate raw).2.2.1 (ParseRawEvaluationTemplate raw).2.2.2.2
      (((ParseRawEvaluationTemplate raw).2.2.2.1.map (fun b =>
        (trimSpace b).dropWhile
          (fun c => c = '•' || c = '-' || c = '*' || c = ' ' || c = '\t'))).filter
        (fun b => b ≠ []))
      oc hbl hIm hqm hqn hAm hth htl htn hitn
    refine ⟨c', hc1, ?_, ?_⟩
    · rw [hc2]
      rfl
    · rw [hc3]
      rfl

/-- Witness document for C1: one criterion declaring 1.5 marks. -/
def c1wRaw : Str := strL "===CRITERIA===\nCRITERIA 1: A (0-1.5 marks)\n"

/-- The templates built from the C1 witness document. -/
def c1wTs : List CriterionTemplate := (BuildCriterionTemplatesFromRaw c1wRaw).toOption.getD []

/-- The single template built from the C1 witness document. -/
def c1wT : CriterionTemplate := c1wTs.getD 0 ⟨[], [], ⟨0, 0⟩⟩

/-- Witness for the amended C1 at a concrete input: building the 1.5-marks
document succeeds, and the round-trip theorem applies to its template — the
re-parsed criterion carries the title and the read-back of the rendered
score. -/
theorem C1_witness :
    BuildCriterionTemplatesFromRaw c1wRaw = Except.ok c1wTs ∧ c1wT ∈ c1wTs ∧
    (∃ c' : Criterion,
      (ParseRawEvaluationTemplate c1wT.prompt).2.1 = [c'] ∧
      c'.title = c1wT.title ∧
      c'.maxScore = atofSafe (formatScore c1wT.maxScore)) :=
  ⟨by decide, by decide, C1_amended c1wRaw c1wTs (by decide) c1wT (by decide)⟩

example : formatScore (atofSafe (strL "1.5")) = strL "1.5" := by decide
example : formatScore (atofSafe (strL "2.0")) = strL "2" := by decide
example : formatScore (atofSafe (strL "1.25")) = strL "1.25" := by decide
example : critMatch (strL "CRITERIA 1: Content (0-5 marks)") =
    some (strL "1", strL "Content", strL "5") := by decide
example : itemMatch (strL "- Test item (0-2 marks)") =
    some (strL "Test item", strL "2") := by decide
